import Mathlib

/-!
Verification development for the sql2graph repository.

The DDL-to-schema extractor (`src/utils/ddl_to_schema.py`) is embedded
shallowly: Python strings become `List Char`, Python dicts become
insertion-ordered association lists, and every helper is translated
function-for-function.  Python's `str.strip`/`str.split` are modelled over
the ASCII whitespace characters; `str.lower` is modelled per-character by
`Char.toLower` (adequate for the ASCII texts the claims concern).  The two
regular expressions of the source are compiled by hand into deterministic
scanners; determinism is justified because in both patterns the adjacent
character classes are disjoint, so the regex engine's backtracking can
never produce a different match.
-/

namespace SqlToGraph

abbrev Str := List Char

/-- Python single-quote character, kept out of literals. -/
def sqc : Char := Char.ofNat 39

/-- Backtick character, kept out of literals. -/
def bqc : Char := Char.ofNat 96

/-- Python `str.strip()` whitespace class (ASCII part). -/
def isPyWs (c : Char) : Bool :=
  c = ' ' || c = '\t' || c = '\n' || c = '\r' || c = '\x0b' || c = '\x0c'

/-- Python `s.strip()`. -/
def pyStrip (s : Str) : Str :=
  ((s.dropWhile isPyWs).reverse.dropWhile isPyWs).reverse

/-- Helper for `pySplitWs`: accumulate the current (reversed) token. -/
def splitWsAux : Str → Str → List Str
  | [], cur => if cur = [] then [] else [cur.reverse]
  | c :: rest, cur =>
    if isPyWs c then
      if cur = [] then splitWsAux rest [] else cur.reverse :: splitWsAux rest []
    else splitWsAux rest (c :: cur)

/-- Python `s.split()` (split on whitespace runs, no empty tokens). -/
def pySplitWs (s : Str) : List Str := splitWsAux s []

/-- Python `s.split('.')[-1]`: the substring after the last dot. -/
def afterLastDot (s : Str) : Str :=
  (s.reverse.takeWhile (fun c => c ≠ '.')).reverse

/-- Schema-prefix removal, `ddl_to_schema.py` lines 28-29. -/
def sbqDotStage (s : Str) : Str :=
  if '.' ∈ s then pyStrip (afterLastDot s) else s

/-- Bracket stripping, `ddl_to_schema.py` lines 32-39 (`s[1:-1]`, `s[1:]`, `s[:-1]`). -/
def sbqBracketStage (s : Str) : Str :=
  if s.head? = some '[' ∧ s.getLast? = some ']' then (s.drop 1).dropLast
  else
    let a := if s.head? = some '[' then s.drop 1 else s
    if a.getLast? = some ']' then a.dropLast else a

/-- Quote stripping, `ddl_to_schema.py` lines 41-48. -/
def sbqQuoteStage (s : Str) : Str :=
  if (s.head? = some '"' ∧ s.getLast? = some '"') ∨
     (s.head? = some sqc ∧ s.getLast? = some sqc) then (s.drop 1).dropLast
  else
    let a := if s.head? = some '"' ∨ s.head? = some sqc then s.drop 1 else s
    if a.getLast? = some '"' ∨ a.getLast? = some sqc then a.dropLast else a

/--
`strip_brackets_and_quotes` from `src/utils/ddl_to_schema.py` lines 18-50:
drop an optional schema prefix, then strip paired or lone surrounding
brackets, then paired or lone surrounding quotes, then trim.
-/
def strip_brackets_and_quotes (name : Str) : Str :=
  if name = [] then []
  else pyStrip (sbqQuoteStage (sbqBracketStage (sbqDotStage (pyStrip name))))

/-- The keyword searched for by the scanner (12 characters). -/
def ctKw : Str := "create table".toList

def kwCreate : Str := "create".toList

def kwTable : Str := "table".toList

/-- Python `hay.find(needle, start)`, as an option over char lists. -/
def strFindAux (needle : Str) : Str → Nat → Option Nat
  | [], i => if needle = [] then some i else none
  | h :: t, i => if needle.isPrefixOf (h :: t) then some i else strFindAux needle t (i + 1)

def strFind (hay needle : Str) (start : Nat) : Option Nat :=
  strFindAux needle (hay.drop start) start

/--
The matching-parenthesis scan of `find_create_table_blocks` lines 84-97:
from the opening parenthesis, depth goes up on `(` and down on `)`; the
scan stops at the `)` bringing the depth to zero.  Quotes are NOT tracked.
-/
def parenScanAux : Str → Nat → Int → Option Nat
  | [], _, _ => none
  | c :: rest, i, d =>
    if c = '(' then parenScanAux rest (i + 1) (d + 1)
    else if c = ')' then
      if d - 1 = 0 then some i else parenScanAux rest (i + 1) (d - 1)
    else parenScanAux rest (i + 1) d

/-- Match a literal, case-insensitively on the subject side. -/
def dropCI (lit : Str) : Str → Option Str
  | s =>
    match lit, s with
    | [], s => some s
    | _ :: _, [] => none
    | a :: la, b :: lb => if b.toLower = a then dropCI la lb else none

/-- `\s+`: at least one whitespace character, consumed greedily. -/
def ws1 : Str → Option Str
  | [] => none
  | c :: rest => if isPyWs c then some (rest.dropWhile isPyWs) else none

/-- The character class `[A-Za-z0-9_\.[\[\]"]` of the table-name regex. -/
def isTblNameChar (c : Char) : Bool :=
  c.isAlpha || c.isDigit || c = '_' || c = '.' || c = '[' || c = ']' || c = '"'

/--
One anchored attempt of the regex
`create\s+table\s+([A-Za-z0-9_\.[\[\]"]+)\s*$` (re.I).  All adjacent
classes are disjoint, so greedy matching with no backtracking is exact.
-/
def matchCreateAt (s : Str) : Option Str :=
  match dropCI kwCreate s with
  | none => none
  | some s1 =>
    match ws1 s1 with
    | none => none
    | some s2 =>
      match dropCI kwTable s2 with
      | none => none
      | some s3 =>
        match ws1 s3 with
        | none => none
        | some s4 =>
          let name := s4.takeWhile isTblNameChar
          let s5 := s4.dropWhile isTblNameChar
          if name = [] then none
          else if s5.all isPyWs then some name else none

/-- `re.search`: leftmost position at which the anchored match succeeds. -/
def searchCreate : Str → Option Str
  | [] => none
  | c :: rest =>
    match matchCreateAt (c :: rest) with
    | some n => some n
    | none => searchCreate rest

def unknownTable : Str := "unknown_table".toList

/--
Raw-table extraction of `find_create_table_blocks` lines 74-82: regex
search over `pre = sql_text[pos:open_paren_pos]`, falling back to the last
whitespace token of `pre`, falling back to the sentinel.
-/
def rawTableOf (pre : Str) : Str :=
  match searchCreate pre with
  | some n => n
  | none =>
    match (pySplitWs (pyStrip pre)).getLast? with
    | some tok => tok
    | none => unknownTable

structure DDLBlock where
  table_raw : Str
  cols_block : Str
deriving DecidableEq

/--
The scanning loop of `find_create_table_blocks` lines 57-105, with an
explicit fuel (the loop strictly advances `idx`, so `length + 1` steps
always suffice; see `fctbGo_fuel`).
-/
def fctbGo (text lower : Str) : Nat → Nat → List DDLBlock
  | 0, _ => []
  | fuel + 1, idx =>
    match strFind lower ctKw idx with
    | none => []
    | some pos =>
      match strFind text ['('] pos with
      | none => fctbGo text lower fuel (pos + 12)
      | some openPos =>
        let pre := (text.drop pos).take (openPos - pos)
        let raw := rawTableOf pre
        match parenScanAux (text.drop openPos) openPos 0 with
        | none => fctbGo text lower fuel (pos + 12)
        | some endPos =>
          { table_raw := raw,
            cols_block := (text.drop (openPos + 1)).take (endPos - (openPos + 1)) }
            :: fctbGo text lower fuel (endPos + 1)

/-- `find_create_table_blocks` from `src/utils/ddl_to_schema.py`. -/
def find_create_table_blocks (sqlText : Str) : List DDLBlock :=
  fctbGo sqlText (sqlText.map Char.toLower) (sqlText.length + 1) 0

/--
State-machine step of `split_top_level_commas` lines 107-155, following
the source's branch order exactly.
-/
def stcGo : Str → Nat → Bool → Bool → Bool → Str → List Str → List Str
  | [], _, _, _, _, cur, acc =>
    if pyStrip cur = [] then acc else acc ++ [pyStrip cur]
  | c :: rest, depth, inSq, inDq, inBr, cur, acc =>
    if c = sqc && !inDq && !inBr then stcGo rest depth (!inSq) inDq inBr (cur ++ [c]) acc
    else if c = '"' && !inSq && !inBr then stcGo rest depth inSq (!inDq) inBr (cur ++ [c]) acc
    else if c = '[' && !inSq && !inDq then stcGo rest depth inSq inDq true (cur ++ [c]) acc
    else if c = ']' && inBr then stcGo rest depth inSq inDq false (cur ++ [c]) acc
    else if inSq || inDq || inBr then stcGo rest depth inSq inDq inBr (cur ++ [c]) acc
    else if c = '(' then stcGo rest (depth + 1) inSq inDq inBr (cur ++ [c]) acc
    else if c = ')' then stcGo rest (depth - 1) inSq inDq inBr (cur ++ [c]) acc
    else if c = ',' && depth = 0 then
      stcGo rest depth inSq inDq inBr []
        (if pyStrip cur = [] then acc else acc ++ [pyStrip cur])
    else stcGo rest depth inSq inDq inBr (cur ++ [c]) acc

/-- `split_top_level_commas` from `src/utils/ddl_to_schema.py`. -/
def split_top_level_commas (s : Str) : List Str :=
  stcGo s 0 false false false [] []

def kwConstraint : Str := "constraint".toList

def kwPrimary : Str := "primary".toList

def kwKey : Str := "key".toList

def kwUnique : Str := "unique".toList

def kwForeign : Str := "foreign".toList

def kwCheck : Str := "check".toList

def kwIdx : Str := "index".toList

def kwAlter : Str := "alter".toList

def startsCI (lit : Str) (s : Str) : Bool := (dropCI lit s).isSome

def startsTwoWordCI (w1 w2 : Str) (s : Str) : Bool :=
  match dropCI w1 s with
  | none => false
  | some r =>
    match ws1 r with
    | none => false
    | some r2 => (dropCI w2 r2).isSome

/--
The constraint test of `parse_column_name_from_def` line 168: the regex
`^(constraint|primary\s+key|unique|foreign\s+key|check|index|alter|constraint)`
(re.I) is a PREFIX match, with no word boundary.
-/
def isConstraintStart (s : Str) : Bool :=
  startsCI kwConstraint s || startsTwoWordCI kwPrimary kwKey s || startsCI kwUnique s ||
  startsTwoWordCI kwForeign kwKey s || startsCI kwCheck s || startsCI kwIdx s ||
  startsCI kwAlter s

/-- Bare-identifier class `[A-Za-z0-9_]` of the leading-name regex. -/
def isIdentChar (c : Char) : Bool := c.isAlpha || c.isDigit || c = '_'

/-- A delimited alternative `D([^D]+)D` of the leading-name regex. -/
def delimContent (d : Char) (rest : Str) : Option Str :=
  let content := rest.takeWhile (fun c => c ≠ d)
  if content = [] then none
  else
    match rest.dropWhile (fun c => c ≠ d) with
    | e :: _ => if e = d then some content else none
    | _ => none

/--
The leading-name regex of `parse_column_name_from_def` line 175:
bracketed, double-quoted, backtick-quoted or bare identifier, after
optional whitespace; deterministic because the four alternatives start
with distinct characters, none of them whitespace.
-/
def matchLeadingName (s : Str) : Option Str :=
  match s.dropWhile isPyWs with
  | [] => none
  | c :: rest =>
    if c = '[' then delimContent ']' rest
    else if c = '"' then delimContent '"' rest
    else if c = bqc then delimContent bqc rest
    else if isIdentChar c then some ((c :: rest).takeWhile isIdentChar)
    else none

/-- `parse_column_name_from_def` from `src/utils/ddl_to_schema.py`. -/
def parse_column_name_from_def (colDef : Str) : Str :=
  let s := pyStrip colDef
  if isConstraintStart s then []
  else
    let s2 := if s.getLast? = some ',' then pyStrip s.dropLast else s
    match matchLeadingName s2 with
    | some name => strip_brackets_and_quotes name
    | none =>
      match pySplitWs s2 with
      | [] => []
      | t :: _ => strip_brackets_and_quotes t

/-- Python dict assignment `m[k] = v`: overwrite in place, else append. -/
def dictSet (m : List (Str × List Str)) (k : Str) (v : List Str) : List (Str × List Str) :=
  match m with
  | [] => [(k, v)]
  | (k', v') :: rest => if k' = k then (k, v) :: rest else (k', v') :: dictSet rest k v

/-- The per-block column accumulation of `ddl_to_schema` lines 194-199. -/
def collectCols (parts : List Str) : List Str :=
  parts.foldl
    (fun cols p =>
      let colname := parse_column_name_from_def p
      if colname = [] then cols
      else if colname ∈ cols then cols
      else cols ++ [colname])
    []

/-- `ddl_to_schema` from `src/utils/ddl_to_schema.py` lines 185-202. -/
def ddl_to_schema (sqlText : Str) : List (Str × List Str) :=
  (find_create_table_blocks sqlText).foldl
    (fun tables blk =>
      let table := strip_brackets_and_quotes blk.table_raw
      let cols := collectCols (split_top_level_commas blk.cols_block)
      if cols = [] then tables else dictSet tables table cols)
    []

/-- The text between the keyword and the opening parenthesis, generator side. -/
def preT (t : Str) : Str := "CREATE TABLE ".toList ++ t ++ [' ']

/-- A well-formed `CREATE TABLE t (body)` statement, generator side. -/
def genStmt (t b : Str) : Str := preT t ++ '(' :: (b ++ [')'])

/-- Characters with no structural meaning to the Top-Level Splitter. -/
def plainChar (c : Char) : Bool :=
  !(c = sqc || c = '"' || c = '[' || c = ']' || c = '(' || c = ')' || c = ',')

/-- The `", "`-join that builds a column-list body from segments. -/
def joinComma : List Str → Str
  | [] => []
  | [s] => s
  | s :: rest => s ++ ',' :: ' ' :: joinComma rest

/--
De-duplication keeping the first occurrence of each name, stated
structurally (specification side, to be compared with the accumulating
loop of `ddl_to_schema`).
-/
def firstOccurrences : List Str → List Str
  | [] => []
  | x :: xs => x :: (firstOccurrences xs).filter (fun y => y ≠ x)

/-- One generated column segment `name TYPE`. -/
def colSeg (p : Str × Str) : Str := p.1 ++ ' ' :: p.2

/-- The generated column-list body `c1 T1, c2 T2, ...`. -/
def genBody (specs : List (Str × Str)) : Str := joinComma (specs.map colSeg)

/-!
### Registry builder and loader
`src/utils/build_registry.py` derives one NDJSON document per table of a
schema mapping and `src/utils/table_selector.py` reads them back
(`TableRegistry._load_registry`, lines 32-38).  The 8-hex-digit SHA-1
prefix of `signature` is abstracted as a function parameter `sha`; the
JSON layer (`json.dumps` / `json.loads`) is embedded for the subset of
values the documents use: strings and arrays of strings.
-/

/-- `normalize` of build_registry.py lines 9-10:
`re.sub(r'[^0-9a-z]', '_', s.lower())`, character by character. -/
def normalize (s : Str) : Str :=
  s.map (fun c =>
    let lc := c.toLower
    if ('0' ≤ lc ∧ lc ≤ '9') ∨ ('a' ≤ lc ∧ lc ≤ 'z') then lc else '_')

/-- Helper for `pySplitSep`: accumulate the current (reversed) part. -/
def pySplitSepAux (sep : Char) : Str → Str → List Str
  | [], cur => [cur.reverse]
  | c :: rest, cur =>
    if c = sep then cur.reverse :: pySplitSepAux sep rest []
    else pySplitSepAux sep rest (c :: cur)

/-- Python `s.split(sep)` for a one-character separator: splits at every
occurrence and keeps empty parts (`"".split('_') == ['']`). -/
def pySplitSep (sep : Char) (s : Str) : List Str := pySplitSepAux sep s []

/-- Python `s.endswith(t)`. -/
def pyEndsWith (s t : Str) : Bool := t.reverse.isPrefixOf s.reverse

/-- Python `t in s`: substring containment, via the `str.find` model. -/
def pyIn (t s : Str) : Bool := (strFind s t 0).isSome

/-- The sort key of `pick_top_columns` (build_registry.py line 18):
`(c.endswith('_id') or c.endswith('id'), 'date' in c, 'name' in c,
'status' in c)`.  Lexicographic order on a fixed-length tuple of
booleans with `True > False` coincides with numeric order of the 4-bit
number having the first component as most significant bit. -/
def priority (c : Str) : Nat :=
  (if pyEndsWith c ("_id".toList) || pyEndsWith c ("id".toList) then 8 else 0) +
  (if pyIn ("date".toList) c then 4 else 0) +
  (if pyIn ("name".toList) c then 2 else 0) +
  (if pyIn ("status".toList) c then 1 else 0)

/-- Order-preserving insertion into a descending-key list: `x` goes after
every element of equal or larger key and before the first smaller one. -/
def insDesc (x : Str) : List Str → List Str
  | [] => [x]
  | y :: ys => if priority y < priority x then x :: y :: ys else y :: insDesc x ys

/-- `pick_top_columns` (build_registry.py lines 16-20):
`sorted(cols, key=priority, reverse=True)[:n]`.  Python's `sorted` is
stable, and the stable descending arrangement of a list is unique; it is
computed here by left-to-right insertion, later equal keys landing after
earlier ones. -/
def pick_top_columns (cols : List Str) (n : Nat) : List Str :=
  (cols.foldl (fun acc c => insDesc c acc) []).take n

/-- Python `','.join(parts)`. -/
def joinSepC : List Str → Str
  | [] => []
  | [s] => s
  | s :: rest => s ++ ',' :: joinSepC rest

/-- `signature` (build_registry.py lines 12-14) up to the hash itself:
the document stores `sha(table + '|' + ','.join(cols))` where `sha`
abstracts `hashlib.sha1(...).hexdigest()[:8]`. -/
def signature (sha : Str → Str) (table : Str) (cols : List Str) : Str :=
  sha (table ++ '|' :: joinSepC cols)

/-- The alias set of build_registry.py line 34,
`{normalize(table)} | {normalize(t) for t in table.split('_')}`, as a
duplicate-free list in first-occurrence order.  Python materializes the
set in an unspecified iteration order; the set itself is what the spec
and the claim speak about. -/
def aliasesOf (t : Str) : List Str :=
  firstOccurrences (normalize t :: (pySplitSep '_' t).map normalize)

/-- JSON values occurring in registry documents: strings and arrays of
strings (the subset `json.dumps`/`json.loads` exercise on these lines). -/
inductive JVal where
  | jstr : Str → JVal
  | jarr : List Str → JVal
deriving DecidableEq

/-- A JSON object, as the ordered association list of its members. -/
abbrev JDoc := List (Str × JVal)

/-- Opening brace character. -/
def obrc : Char := Char.ofNat 123

/-- Closing brace character. -/
def cbrc : Char := Char.ofNat 125

/-- Lowercase hexadecimal digit character. -/
def hexDigit (n : Nat) : Char :=
  if n < 10 then Char.ofNat (48 + n) else Char.ofNat (87 + n)

/-- `json.dumps` escaping of one character (ensure_ascii=False): the two
quote/backslash escapes, the five short control escapes, `\u00xx` for the
remaining control characters, and every other character verbatim. -/
def escChar (c : Char) : Str :=
  if c = '"' then ['\\', '"']
  else if c = '\\' then ['\\', '\\']
  else if c = '\n' then ['\\', 'n']
  else if c = '\t' then ['\\', 't']
  else if c = '\r' then ['\\', 'r']
  else if c = '\x08' then ['\\', 'b']
  else if c = '\x0c' then ['\\', 'f']
  else if c.toNat < 32 then ['\\', 'u', '0', '0', hexDigit (c.toNat / 16), hexDigit (c.toNat % 16)]
  else [c]

/-- `json.dumps` escaping of a string body. -/
def escString : Str → Str
  | [] => []
  | c :: cs => escChar c ++ escString cs

/-- `json.dumps` of a string value. -/
def encodeJStr (s : Str) : Str := '"' :: (escString s ++ ['"'])

/-- `json.dumps` of a registry value (default separators: `", "`). -/
def encodeJVal : JVal → Str
  | .jstr s => encodeJStr s
  | .jarr xs => '[' :: (joinComma (xs.map encodeJStr) ++ [']'])

/-- `json.dumps` of one object member (default key separator `": "`). -/
def encodePair (p : Str × JVal) : Str :=
  encodeJStr p.1 ++ ':' :: ' ' :: encodeJVal p.2

/-- `json.dumps(doc, ensure_ascii=False)` of a flat object, members in
insertion order as Python dicts preserve it. -/
def encodeObj (doc : JDoc) : Str :=
  obrc :: (joinComma (doc.map encodePair) ++ [cbrc])

/-- The NDJSON document built for one table by build_registry.py lines
31-42: keys in dict-literal order, `sig` field `f"tbl:{table}|h:{sig}"`. -/
def docOf (sha : Str → Str) (table : Str) (cols : List Str) : JDoc :=
  [("table".toList, JVal.jstr table),
   ("sig".toList, JVal.jstr ("tbl:".toList ++ table ++ "|h:".toList ++
      signature sha table (pick_top_columns cols 4))),
   ("top_columns".toList, JVal.jarr (pick_top_columns cols 4)),
   ("aliases".toList, JVal.jarr (aliasesOf table)),
   ("sample_queries".toList, JVal.jarr []),
   ("neighbors".toList, JVal.jarr []),
   ("sensitivity".toList, JVal.jstr ("low".toList))]

/-- `build_registry` (build_registry.py lines 22-43), restricted to its
NDJSON output: one `json.dumps(doc) + "\n"` line per schema entry, in
mapping order.  (The sqlite index files are separate artifacts outside
the NDJSON roundtrip.) -/
def build_registry (sha : Str → Str) (schema : List (Str × List Str)) : List Str :=
  schema.map (fun p => encodeObj (docOf sha p.1 p.2) ++ ['\n'])

/-- JSON whitespace. -/
def isJWs (c : Char) : Bool := c = ' ' || c = '\t' || c = '\n' || c = '\r'

/-- Skip insignificant whitespace while parsing. -/
def skipJWs (s : Str) : Str := s.dropWhile isJWs

/-- Value of a hexadecimal digit character. -/
def hexVal (c : Char) : Option Nat :=
  if '0' ≤ c ∧ c ≤ '9' then some (c.toNat - 48)
  else if 'a' ≤ c ∧ c ≤ 'f' then some (c.toNat - 87)
  else if 'A' ≤ c ∧ c ≤ 'F' then some (c.toNat - 55)
  else none

/-- Scanner mode while unescaping a JSON string body: plain characters,
just after a backslash, or inside a `\u` sequence with the count of hex
digits still expected and the value accumulated so far. -/
inductive JSMode where
  | norm : JSMode
  | esc : JSMode
  | uni : Nat → Nat → JSMode

/-- `json.loads` string-body scanner (after the opening quote): unescape
up to the closing quote, returning the content and the remainder. -/
def pjsGo : JSMode → Str → Option (Str × Str)
  | _, [] => none
  | .norm, c :: cs =>
    if c = '"' then some ([], cs)
    else if c = '\\' then pjsGo .esc cs
    else (pjsGo .norm cs).map (fun p => (c :: p.1, p.2))
  | .esc, e :: cs =>
    if e = '"' then (pjsGo .norm cs).map (fun p => ('"' :: p.1, p.2))
    else if e = '\\' then (pjsGo .norm cs).map (fun p => ('\\' :: p.1, p.2))
    else if e = '/' then (pjsGo .norm cs).map (fun p => ('/' :: p.1, p.2))
    else if e = 'n' then (pjsGo .norm cs).map (fun p => ('\n' :: p.1, p.2))
    else if e = 't' then (pjsGo .norm cs).map (fun p => ('\t' :: p.1, p.2))
    else if e = 'r' then (pjsGo .norm cs).map (fun p => ('\r' :: p.1, p.2))
    else if e = 'b' then (pjsGo .norm cs).map (fun p => ('\x08' :: p.1, p.2))
    else if e = 'f' then (pjsGo .norm cs).map (fun p => ('\x0c' :: p.1, p.2))
    else if e = 'u' then pjsGo (.uni 4 0) cs
    else none
  | .uni k acc, h :: cs =>
    match hexVal h with
    | none => none
    | some v =>
      if k ≤ 1 then (pjsGo .norm cs).map (fun p => (Char.ofNat (16 * acc + v) :: p.1, p.2))
      else pjsGo (.uni (k - 1) (16 * acc + v)) cs

/-- `json.loads` string body from the character after the opening quote. -/
def parseJStrAux (s : Str) : Option (Str × Str) := pjsGo JSMode.norm s

/-- Array-element loop of the reader (positioned at an element), with
fuel bounding the number of elements. -/
def parseArrAux : Nat → Str → Option (List Str × Str)
  | 0, _ => none
  | f + 1, s =>
    match s with
    | [] => none
    | c :: cs =>
      if c = '"' then
        match parseJStrAux cs with
        | none => none
        | some (str, r) =>
          match skipJWs r with
          | [] => none
          | d :: ds =>
            if d = ',' then
              match parseArrAux f (skipJWs ds) with
              | none => none
              | some (xs, r2) => some (str :: xs, r2)
            else if d = ']' then some ([str], ds)
            else none
      else none

/-- One JSON value of the registry subset: a string or a string array. -/
def parseJVal (f : Nat) (s : Str) : Option (JVal × Str) :=
  match s with
  | [] => none
  | c :: cs =>
    if c = '"' then (parseJStrAux cs).map (fun p => (JVal.jstr p.1, p.2))
    else if c = '[' then
      match skipJWs cs with
      | [] => none
      | d :: ds =>
        if d = ']' then some (JVal.jarr [], ds)
        else
          match parseArrAux f (d :: ds) with
          | none => none
          | some p => some (JVal.jarr p.1, p.2)
    else none

/-- Object-member loop of the reader (positioned at a key), with fuel
bounding the total number of members and array elements. -/
def parseObjAux : Nat → Str → Option (List (Str × JVal) × Str)
  | 0, _ => none
  | f + 1, s =>
    match s with
    | [] => none
    | c :: cs =>
      if c = '"' then
        match parseJStrAux cs with
        | none => none
        | some (key, r) =>
          match skipJWs r with
          | [] => none
          | d :: ds =>
            if d = ':' then
              match parseJVal f (skipJWs ds) with
              | none => none
              | some (v, r2) =>
                match skipJWs r2 with
                | [] => none
                | e :: es =>
                  if e = ',' then
                    match parseObjAux f (skipJWs es) with
                    | none => none
                    | some (ps, r3) => some ((key, v) :: ps, r3)
                  else if e = cbrc then some ([(key, v)], es)
                  else none
            else none
      else none

/-- `d[k] = v` on an insertion-ordered dict, generic in the value type:
overwrite in place, else append. -/
def dictSetG {α : Type} (m : List (Str × α)) (k : Str) (v : α) : List (Str × α) :=
  match m with
  | [] => [(k, v)]
  | (k', v') :: rest => if k' = k then (k, v) :: rest else (k', v') :: dictSetG rest k v

/-- Python dict lookup `d[k]` over the assoc-list model. -/
def lookupStr {α : Type} (k : Str) : List (Str × α) → Option α
  | [] => none
  | (k', v) :: rest => if k' = k then some v else lookupStr k rest

/-- `json.loads` object semantics: members become a dict in order, a
later duplicate key overwriting the earlier one. -/
def objToDict (ps : List (Str × JVal)) : JDoc :=
  ps.foldl (fun d p => dictSetG d p.1 p.2) []

/-- `json.loads(line)` for a registry NDJSON line: an object of the
subset grammar, followed only by whitespace. -/
def parseLine (line : Str) : Option JDoc :=
  match skipJWs line with
  | [] => none
  | c :: cs =>
    if c = obrc then
      match skipJWs cs with
      | [] => none
      | d :: ds =>
        if d = cbrc then if skipJWs ds = [] then some [] else none
        else
          match parseObjAux (line.length + 1) (d :: ds) with
          | none => none
          | some (ps, rest) => if skipJWs rest = [] then some (objToDict ps) else none
    else none

/-- `TableRegistry._load_registry` (table_selector.py lines 32-38):
`for line in f: doc = json.loads(line); self.tables[doc['table']] = doc`,
with `None` modelling the exception paths (malformed JSON, missing or
non-string `'table'` key).  One line: parse, then
`self.tables[doc['table']] = doc`. -/
def loadStep (acc : Option (List (Str × JDoc))) (line : Str) :
    Option (List (Str × JDoc)) :=
  match acc with
  | none => none
  | some tbls =>
    match parseLine line with
    | none => none
    | some doc =>
      match lookupStr ("table".toList) doc with
      | some (JVal.jstr t) => some (dictSetG tbls t doc)
      | _ => none

/-- The loader folds `loadStep` over the NDJSON lines. -/
def loadRegistry (lines : List Str) : Option (List (Str × JDoc)) :=
  lines.foldl loadStep (some [])

/-- Fuel measure of a document: members plus array elements. -/
def vsize : JVal → Nat
  | .jstr _ => 0
  | .jarr xs => xs.length

/-- Fuel measure of an object. -/
def jweight (ps : JDoc) : Nat := ps.foldr (fun p acc => 1 + vsize p.2 + acc) 0

/-- Concrete hash stand-in for the roundtrip witness. -/
def shaW : Str → Str :=
  fun s => if s = "policies|pol_id,pol_date,note".toList then "9e9f1fe4".toList else []

/-- Concrete one-table schema for the roundtrip witness. -/
def schemaW : List (Str × List Str) :=
  [("policies".toList, ["pol_id".toList, "pol_date".toList, "note".toList])]

end SqlToGraph

namespace SqlToGraph

example : ddl_to_schema ("CREATE TABLE t (a INT, b INT)".toList) =
    [("t".toList, ["a".toList, "b".toList])] := by decide

example : ddl_to_schema ("CREATE TABLE t (a INT, CHECK (a > 0 AND (b < 10)))".toList) =
    [("t".toList, ["a".toList])] := by decide

example : ddl_to_schema ("CREATE TABLE t (a VARCHAR(10) DEFAULT 'x,y')".toList) =
    [("t".toList, ["a".toList])] := by decide

example : ddl_to_schema ("CREATE TABLE [dbo].[Orders] ([OrderId] INT)".toList) =
    [("Orders".toList, ["OrderId".toList])] := by decide

example : ddl_to_schema ("CREATE TABLE Orders (OrderId INT)".toList) =
    [("Orders".toList, ["OrderId".toList])] := by decide

example : ddl_to_schema ("CREATE TABLE t (PRIMARY KEY (a))".toList) = [] := by decide

example : find_create_table_blocks ("create table (a int)".toList) =
    [{ table_raw := "table".toList, cols_block := "a int".toList }] := by decide

example : parse_column_name_from_def ("checksum INT".toList) = [] := by decide

example : ddl_to_schema ("CREATE TABLE t (a INT, a INT, b INT)".toList) =
    [("t".toList, ["a".toList, "b".toList])] := by decide

example : ddl_to_schema ("CREATE TABLE t (a INT) CREATE TABLE t (b INT)".toList) =
    [("t".toList, ["b".toList])] := by decide

example : ddl_to_schema ("CREATE TABLE t (a VARCHAR(5) DEFAULT ')', b INT)".toList) =
    [("t".toList, ["a".toList])] := by decide

example : find_create_table_blocks ("CREATE TABLE t (a VARCHAR(5) DEFAULT ')', b INT)".toList) =
    [{ table_raw := "t".toList, cols_block := "a VARCHAR(5) DEFAULT '".toList }] := by decide

example : strip_brackets_and_quotes ("\"[x\"".toList) = "[x".toList := by decide

example : strip_brackets_and_quotes ("[x".toList) = "x".toList := by decide

example : ddl_to_schema ("create table a (x int) create table b (y int".toList) =
    [("a".toList, ["x".toList])] := by decide

example : ddl_to_schema ("create table b".toList) = [] := by decide

theorem dictSet_mem {m : List (Str × List Str)} {k : Str} {v : List Str} {p : Str × List Str}
    (h : p ∈ dictSet m k v) : p ∈ m ∨ p = (k, v) := by
  induction m with
  | nil => simpa [dictSet] using h
  | cons q rest ih =>
    obtain ⟨k', v'⟩ := q
    by_cases hk : k' = k
    · simp only [dictSet, if_pos hk, List.mem_cons] at h
      rcases h with h | h
      · exact Or.inr h
      · exact Or.inl (List.mem_cons_of_mem _ h)
    · simp only [dictSet, if_neg hk, List.mem_cons] at h
      rcases h with h | h
      · exact Or.inl (by simp [h])
      · rcases ih h with h' | h'
        · exact Or.inl (List.mem_cons_of_mem _ h')
        · exact Or.inr h'

theorem ddl_fold_no_empty (blocks : List DDLBlock) (tables : List (Str × List Str))
    (hinv : ∀ p ∈ tables, p.2 ≠ []) :
    ∀ p ∈ blocks.foldl
      (fun tables blk =>
        let table := strip_brackets_and_quotes blk.table_raw
        let cols := collectCols (split_top_level_commas blk.cols_block)
        if cols = [] then tables else dictSet tables table cols)
      tables, p.2 ≠ [] := by
  induction blocks generalizing tables with
  | nil => simpa using hinv
  | cons blk rest ih =>
    intro p hp
    simp only [List.foldl_cons] at hp
    by_cases hc : collectCols (split_top_level_commas blk.cols_block) = []
    · exact ih tables hinv p (by simpa [hc] using hp)
    · refine ih _ ?_ p (by simpa [hc] using hp)
      intro q hq
      rcases dictSet_mem hq with h | h
      · exact hinv q h
      · rw [h]; exact hc

/--
C3: commas nested inside parentheses or quoted strings are not split
points and nested parentheses do not end the block early:
`CREATE TABLE t (a INT, CHECK (a > 0 AND (b < 10)))` extracts to
`{t: [a]}` (the CHECK segment excluded), and
`CREATE TABLE t (a VARCHAR(10) DEFAULT 'x,y')` extracts to `{t: [a]}`.
-/
theorem C3_nested_parens_quoted_commas :
    ddl_to_schema ("CREATE TABLE t (a INT, CHECK (a > 0 AND (b < 10)))".toList) =
      [("t".toList, ["a".toList])] ∧
    ddl_to_schema ("CREATE TABLE t (a VARCHAR(10) DEFAULT 'x,y')".toList) =
      [("t".toList, ["a".toList])] := by
  constructor <;> decide

/--
C10: the matching-parenthesis scan counts parenthesis characters inside
quoted string literals too, so a quoted close-parenthesis ends the block:
on `CREATE TABLE t (a VARCHAR(5) DEFAULT ')', b INT)` the emitted body
stops at the quoted `)` and extraction yields `{t: [a]}`, column `b`
absent.
-/
theorem C10_quoted_paren_ends_block :
    find_create_table_blocks ("CREATE TABLE t (a VARCHAR(5) DEFAULT ')', b INT)".toList) =
      [{ table_raw := "t".toList, cols_block := "a VARCHAR(5) DEFAULT '".toList }] ∧
    ddl_to_schema ("CREATE TABLE t (a VARCHAR(5) DEFAULT ')', b INT)".toList) =
      [("t".toList, ["a".toList])] := by
  constructor <;> decide

/--
C6: the output mapping never holds a table with an empty column list, and
a CREATE TABLE block all of whose segments are table-level constraints
(`CREATE TABLE t (PRIMARY KEY (a))`) is omitted entirely.
-/
theorem C6_no_empty_tables :
    (∀ (s : Str) (p : Str × List Str), p ∈ ddl_to_schema s → p.2 ≠ []) ∧
    ddl_to_schema ("CREATE TABLE t (PRIMARY KEY (a))".toList) = [] := by
  refine ⟨fun s p hp => ?_, by decide⟩
  exact ddl_fold_no_empty (find_create_table_blocks s) [] (by simp) p hp

/-- Witness for C6 at a concrete input. -/
theorem C6_no_empty_tables_witness :
    ("t".toList, ["a".toList]) ∈ ddl_to_schema ("CREATE TABLE t (a INT)".toList) ∧
    (("t".toList, ["a".toList]) : Str × List Str).2 ≠ [] :=
  ⟨by decide, C6_no_empty_tables.1 ("CREATE TABLE t (a INT)".toList) _ (by decide)⟩

theorem dropWhile_eq_self_head {p : Char → Bool} {l : Str}
    (h : ∀ c, l.head? = some c → p c = false) : l.dropWhile p = l := by
  cases l with
  | nil => rfl
  | cons c t => simp [List.dropWhile_cons, h c rfl]

theorem dropWhile_head_false (p : Char → Bool) (l : Str) :
    l.dropWhile p = [] ∨ ∃ c, (l.dropWhile p).head? = some c ∧ p c = false := by
  induction l with
  | nil => exact Or.inl rfl
  | cons c t ih =>
    by_cases h : p c = true
    · simpa [List.dropWhile_cons, h] using ih
    · exact Or.inr ⟨c, by simp [List.dropWhile_cons, h], by simpa using h⟩

theorem getLast?_dropWhile {p : Char → Bool} {l : Str} (h : l.dropWhile p ≠ []) :
    (l.dropWhile p).getLast? = l.getLast? := by
  conv_rhs => rw [← List.takeWhile_append_dropWhile (p := p) (l := l)]
  exact (List.getLast?_append_of_ne_nil _ h).symm

theorem pyStrip_getLast (s : Str) :
    pyStrip s = [] ∨ ∃ c, (pyStrip s).getLast? = some c ∧ isPyWs c = false := by
  unfold pyStrip
  rcases dropWhile_head_false isPyWs (s.dropWhile isPyWs).reverse with h | ⟨c, hc, hpc⟩
  · exact Or.inl (by simp [h])
  · exact Or.inr ⟨c, by rw [List.getLast?_reverse]; exact hc, hpc⟩

theorem pyStrip_head (s : Str) :
    pyStrip s = [] ∨ ∃ c, (pyStrip s).head? = some c ∧ isPyWs c = false := by
  rcases dropWhile_head_false isPyWs s with h0 | ⟨c, hc, hpc⟩
  · exact Or.inl (by simp [pyStrip, h0])
  · by_cases hw : (s.dropWhile isPyWs).reverse.dropWhile isPyWs = []
    · exact Or.inl (by simp [pyStrip, hw])
    · refine Or.inr ⟨c, ?_, hpc⟩
      show (((s.dropWhile isPyWs).reverse.dropWhile isPyWs).reverse).head? = some c
      rw [List.head?_reverse, getLast?_dropWhile hw, List.getLast?_reverse]
      exact hc

theorem pyStrip_idem (s : Str) : pyStrip (pyStrip s) = pyStrip s := by
  rcases pyStrip_head s with h | ⟨c, hc, hpc⟩
  · rw [h]; rfl
  rcases pyStrip_getLast s with h' | ⟨d, hd, hpd⟩
  · rw [h']; rfl
  have h1 : (pyStrip s).dropWhile isPyWs = pyStrip s :=
    dropWhile_eq_self_head (fun e he => by rw [hc] at he; cases he; exact hpc)
  have h2 : (pyStrip s).reverse.dropWhile isPyWs = (pyStrip s).reverse :=
    dropWhile_eq_self_head
      (fun e he => by rw [List.head?_reverse, hd] at he; cases he; exact hpd)
  show (((pyStrip s).dropWhile isPyWs).reverse.dropWhile isPyWs).reverse = pyStrip s
  rw [h1, h2, List.reverse_reverse]

theorem pyStrip_sublist (s : Str) : List.Sublist (pyStrip s) s := by
  unfold pyStrip
  have h1 : List.Sublist ((s.dropWhile isPyWs).reverse.dropWhile isPyWs)
      (s.dropWhile isPyWs).reverse := List.dropWhile_sublist _
  have h2 := h1.reverse
  rw [List.reverse_reverse] at h2
  exact h2.trans (List.dropWhile_sublist _)

theorem afterLastDot_no_dot (s : Str) : '.' ∉ afterLastDot s := by
  intro h
  unfold afterLastDot at h
  rw [List.mem_reverse] at h
  have := List.mem_takeWhile_imp h
  simp at this

theorem sbqDotStage_no_dot (s : Str) : '.' ∉ sbqDotStage s := by
  unfold sbqDotStage
  split
  · intro h; exact afterLastDot_no_dot s ((pyStrip_sublist _).subset h)
  · next h => exact h

theorem sbqBracketStage_sublist (s : Str) : List.Sublist (sbqBracketStage s) s := by
  unfold sbqBracketStage
  split
  · exact (List.dropLast_sublist _).trans (List.drop_sublist _ _)
  · dsimp only
    split
    · split
      · exact (List.dropLast_sublist _).trans (List.drop_sublist _ _)
      · exact List.drop_sublist _ _
    · split
      · exact List.dropLast_sublist _
      · exact List.Sublist.refl _

theorem sbqQuoteStage_sublist (s : Str) : List.Sublist (sbqQuoteStage s) s := by
  unfold sbqQuoteStage
  split
  · exact (List.dropLast_sublist _).trans (List.drop_sublist _ _)
  · dsimp only
    split
    · split
      · exact (List.dropLast_sublist _).trans (List.drop_sublist _ _)
      · exact List.drop_sublist _ _
    · split
      · exact List.dropLast_sublist _
      · exact List.Sublist.refl _

theorem sbq_no_dot (nm : Str) : '.' ∉ strip_brackets_and_quotes nm := by
  unfold strip_brackets_and_quotes
  split
  · simp
  · intro h
    exact sbqDotStage_no_dot (pyStrip nm)
      ((sbqBracketStage_sublist _).subset ((sbqQuoteStage_sublist _).subset
        ((pyStrip_sublist _).subset h)))

theorem sbq_trimmed (nm : Str) : pyStrip (strip_brackets_and_quotes nm) = strip_brackets_and_quotes nm := by
  unfold strip_brackets_and_quotes
  split
  · rfl
  · exact pyStrip_idem _

theorem sbqDotStage_id {s : Str} (h : '.' ∉ s) : sbqDotStage s = s := by
  unfold sbqDotStage; exact if_neg h

theorem sbqBracketStage_id {s : Str} (h1 : s.head? ≠ some '[') (h2 : s.getLast? ≠ some ']') :
    sbqBracketStage s = s := by
  unfold sbqBracketStage
  rw [if_neg (fun hc => h1 hc.1)]
  dsimp only
  have ha : (if s.head? = some '[' then s.drop 1 else s) = s := if_neg h1
  rw [ha, if_neg h2]

theorem sbqQuoteStage_id {s : Str} (h1 : s.head? ≠ some '"') (h2 : s.head? ≠ some sqc)
    (h3 : s.getLast? ≠ some '"') (h4 : s.getLast? ≠ some sqc) :
    sbqQuoteStage s = s := by
  unfold sbqQuoteStage
  rw [if_neg (fun hc => hc.elim (fun hc' => h1 hc'.1) (fun hc' => h2 hc'.1))]
  dsimp only
  have ha : (if s.head? = some '"' ∨ s.head? = some sqc then s.drop 1 else s) = s :=
    if_neg (fun hc => hc.elim h1 h2)
  rw [ha, if_neg (fun hc => hc.elim h3 h4)]

theorem sbq_fixed {t : Str}
    (htrim : pyStrip t = t) (hdot : '.' ∉ t)
    (hb1 : t.head? ≠ some '[') (hq1 : t.head? ≠ some '"') (hs1 : t.head? ≠ some sqc)
    (hb2 : t.getLast? ≠ some ']') (hq2 : t.getLast? ≠ some '"') (hs2 : t.getLast? ≠ some sqc) :
    strip_brackets_and_quotes t = t := by
  unfold strip_brackets_and_quotes
  split
  · next h => rw [h]
  · rw [htrim, sbqDotStage_id hdot, sbqBracketStage_id hb1 hb2,
      sbqQuoteStage_id hq1 hs1 hq2 hs2, htrim]

/--
C4 counterexample: the identifier normalizer is NOT idempotent.  The
input `"[x"` normalizes to `[x` (the quote pair is stripped, exposing a
bracket), and normalizing `[x` again gives `x`.
-/
theorem C4_idempotence_counterexample :
    strip_brackets_and_quotes (strip_brackets_and_quotes ("\"[x\"".toList)) ≠
      strip_brackets_and_quotes ("\"[x\"".toList) := by decide

/--
C4 (amended): `CREATE TABLE [dbo].[Orders] ([OrderId] INT)` and
`CREATE TABLE Orders (OrderId INT)` both produce the table key `Orders`;
and the normalizer is idempotent on every output that does not begin with
a bracket or quote character and does not end with one (stripping a pair
can expose such a character, and a second application then strips
further, so the restriction is necessary).
-/
theorem C4_normalization_amended :
    (ddl_to_schema ("CREATE TABLE [dbo].[Orders] ([OrderId] INT)".toList) =
       [("Orders".toList, ["OrderId".toList])] ∧
     ddl_to_schema ("CREATE TABLE Orders (OrderId INT)".toList) =
       [("Orders".toList, ["OrderId".toList])]) ∧
    ∀ nm : Str,
      (strip_brackets_and_quotes nm).head? ≠ some '[' →
      (strip_brackets_and_quotes nm).head? ≠ some '"' →
      (strip_brackets_and_quotes nm).head? ≠ some sqc →
      (strip_brackets_and_quotes nm).getLast? ≠ some ']' →
      (strip_brackets_and_quotes nm).getLast? ≠ some '"' →
      (strip_brackets_and_quotes nm).getLast? ≠ some sqc →
      strip_brackets_and_quotes (strip_brackets_and_quotes nm) =
        strip_brackets_and_quotes nm := by
  refine ⟨⟨by decide, by decide⟩, fun nm h1 h2 h3 h4 h5 h6 => ?_⟩
  exact sbq_fixed (sbq_trimmed nm) (sbq_no_dot nm) h1 h2 h3 h4 h5 h6

/-- Witness for the amended C4 at the concrete input `dbo.Orders`. -/
theorem C4_normalization_amended_witness :
    ((strip_brackets_and_quotes ("dbo.Orders".toList)).head? ≠ some '[') ∧
    strip_brackets_and_quotes (strip_brackets_and_quotes ("dbo.Orders".toList)) =
      strip_brackets_and_quotes ("dbo.Orders".toList) :=
  ⟨by decide,
    C4_normalization_amended.2 ("dbo.Orders".toList) (by decide) (by decide) (by decide)
      (by decide) (by decide) (by decide)⟩

theorem identChar_not_ws {c : Char} (h : isIdentChar c = true) : isPyWs c = false := by
  by_contra hne
  have hws : isPyWs c = true := by
    cases hb : isPyWs c
    · exact absurd hb hne
    · rfl
  rw [isPyWs] at hws
  simp only [Bool.or_eq_true, decide_eq_true_eq] at hws
  rcases hws with ((((h' | h') | h') | h') | h') | h' <;> subst h' <;>
    exact absurd h (by decide)

theorem ws_not_ident {c : Char} (h : isPyWs c = true) : isIdentChar c = false := by
  cases hb : isIdentChar c
  · rfl
  · rw [identChar_not_ws hb] at h; cases h

theorem takeWhile_ident_append_stop {x y : Str} (h : ∀ a ∈ y, isIdentChar a = false) :
    ((x ++ y).takeWhile isIdentChar) = x.takeWhile isIdentChar := by
  induction x with
  | nil =>
    simp only [List.nil_append, List.takeWhile_nil]
    cases y with
    | nil => rfl
    | cons a y' => simp [List.takeWhile_cons, h a (List.mem_cons_self a y')]
  | cons c x' ih =>
    simp only [List.cons_append, List.takeWhile_cons]
    cases hc : isIdentChar c
    · simp
    · simp [ih]

theorem pyStrip_decomp (v : Str) (hh : ∀ c, v.head? = some c → isPyWs c = false) :
    v = pyStrip v ++ (v.reverse.takeWhile isPyWs).reverse ∧
    ∀ a ∈ (v.reverse.takeWhile isPyWs).reverse, isPyWs a = true := by
  constructor
  · unfold pyStrip
    rw [dropWhile_eq_self_head hh]
    conv_lhs =>
      rw [← List.reverse_reverse v,
        ← List.takeWhile_append_dropWhile (p := isPyWs) (l := v.reverse)]
    rw [List.reverse_append]
  · intro a ha
    rw [List.mem_reverse] at ha
    exact List.mem_takeWhile_imp ha

theorem pyStrip_head_of_head {v : Str} {c : Char} (hv : v.head? = some c)
    (hc : isPyWs c = false) :
    (pyStrip v).head? = some c := by
  have hh : ∀ e, v.head? = some e → isPyWs e = false := by
    intro e he; rw [hv] at he; cases he; exact hc
  obtain ⟨hdec, hws⟩ := pyStrip_decomp v hh
  cases hp : pyStrip v with
  | nil =>
    rw [hp, List.nil_append] at hdec
    have : isPyWs c = true := by
      apply hws
      have : c ∈ v.head? := by rw [hv]; rfl
      rw [← hdec]
      exact List.mem_of_mem_head? this
    rw [this] at hc; cases hc
  | cons a r =>
    rw [hdec, hp, List.cons_append, List.head?_cons] at hv
    rw [List.head?_cons, hv]

theorem takeWhile_ident_pyStrip {v : Str} {c : Char} (hv : v.head? = some c)
    (hc : isPyWs c = false) :
    (pyStrip v).takeWhile isIdentChar = v.takeWhile isIdentChar := by
  have hh : ∀ e, v.head? = some e → isPyWs e = false := by
    intro e he; rw [hv] at he; cases he; exact hc
  obtain ⟨hdec, hws⟩ := pyStrip_decomp v hh
  conv_rhs => rw [hdec]
  rw [takeWhile_ident_append_stop (fun a ha => ws_not_ident (hws a ha))]

theorem ident_head_ne {c : Char} (hc : isIdentChar c = true) :
    c ≠ '[' ∧ c ≠ '"' ∧ c ≠ bqc := by
  refine ⟨?_, ?_, ?_⟩ <;> intro h <;> subst h <;> exact absurd hc (by decide)

theorem matchLeadingName_ident {u : Str} {c : Char} (hu : u.head? = some c)
    (hc : isIdentChar c = true) :
    matchLeadingName u = some (u.takeWhile isIdentChar) := by
  obtain ⟨t, rfl⟩ : ∃ t, u = c :: t := by
    cases u with
    | nil => cases hu
    | cons a t => rw [List.head?_cons] at hu; cases hu; exact ⟨t, rfl⟩
  obtain ⟨h1, h2, h3⟩ := ident_head_ne hc
  rw [matchLeadingName, List.dropWhile_cons, identChar_not_ws hc]
  simp only [Bool.false_eq_true, if_false, if_neg h1, if_neg h2, if_neg h3, if_pos hc]

theorem pyStrip_eq_self {w : Str} (hn : ∀ a ∈ w, isPyWs a = false) : pyStrip w = w := by
  have h1 : w.dropWhile isPyWs = w :=
    dropWhile_eq_self_head (fun c hc => hn c (List.mem_of_mem_head? (by rw [hc]; rfl)))
  have h2 : w.reverse.dropWhile isPyWs = w.reverse :=
    dropWhile_eq_self_head (fun c hc => by
      rw [List.head?_reverse] at hc
      exact hn c (List.mem_of_mem_getLast? (by rw [hc]; rfl)))
  show ((w.dropWhile isPyWs).reverse.dropWhile isPyWs).reverse = w
  rw [h1, h2, List.reverse_reverse]

theorem sbq_of_ident {w : Str} (hne : w ≠ []) (h : ∀ a ∈ w, isIdentChar a = true) :
    strip_brackets_and_quotes w = w := by
  have hnws : ∀ a ∈ w, isPyWs a = false := fun a ha => identChar_not_ws (h a ha)
  have htrim : pyStrip w = w := pyStrip_eq_self hnws
  have hhead : ∀ c, w.head? = some c → isIdentChar c = true :=
    fun c hc => h c (List.mem_of_mem_head? (by rw [hc]; rfl))
  have hlast : ∀ c, w.getLast? = some c → isIdentChar c = true :=
    fun c hc => h c (List.mem_of_mem_getLast? (by rw [hc]; rfl))
  unfold strip_brackets_and_quotes
  rw [if_neg hne, htrim]
  rw [sbqDotStage_id (fun hdot => absurd (h '.' hdot) (by decide))]
  rw [sbqBracketStage_id
    (fun hh => absurd (hhead '[' hh) (by decide))
    (fun hh => absurd (hlast ']' hh) (by decide))]
  rw [sbqQuoteStage_id
    (fun hh => absurd (hhead '"' hh) (by decide))
    (fun hh => absurd (hhead sqc hh) (by decide))
    (fun hh => absurd (hlast '"' hh) (by decide))
    (fun hh => absurd (hlast sqc hh) (by decide))]
  exact htrim

theorem parse_ident_head (colDef : Str)
    (hcs : isConstraintStart (pyStrip colDef) = false)
    (hid : isIdentChar ((pyStrip colDef).headD ' ') = true) :
    parse_column_name_from_def colDef = (pyStrip colDef).takeWhile isIdentChar ∧
    (pyStrip colDef).takeWhile isIdentChar ≠ [] := by
  obtain ⟨c, t, hst⟩ : ∃ c t, pyStrip colDef = c :: t := by
    cases hcase : pyStrip colDef with
    | nil => rw [hcase] at hid; exact absurd hid (by decide)
    | cons c t => exact ⟨c, t, rfl⟩
  have hidc : isIdentChar c = true := by rw [hst] at hid; exact hid
  have hhead : (pyStrip colDef).head? = some c := by rw [hst]; rfl
  have hne : (pyStrip colDef).takeWhile isIdentChar ≠ [] := by
    rw [hst, List.takeWhile_cons, hidc]
    simp
  have hallid : ∀ a ∈ (pyStrip colDef).takeWhile isIdentChar, isIdentChar a = true :=
    fun a ha => List.mem_takeWhile_imp ha
  refine ⟨?_, hne⟩
  simp only [parse_column_name_from_def, hcs, Bool.false_eq_true, if_false]
  by_cases hcomma : (pyStrip colDef).getLast? = some ','
  · have ht : t ≠ [] := by
      intro h0
      rw [hst, h0, List.getLast?_singleton] at hcomma
      cases hcomma
      exact absurd hidc (by decide)
    have hdl : (pyStrip colDef).dropLast = c :: t.dropLast := by
      rw [hst]
      cases t with
      | nil => exact absurd rfl ht
      | cons d t' => rfl
    have hdlhead : ((pyStrip colDef).dropLast).head? = some c := by
      rw [hdl]; rfl
    have hs2head : (pyStrip ((pyStrip colDef).dropLast)).head? = some c :=
      pyStrip_head_of_head hdlhead (identChar_not_ws hidc)
    rw [if_pos hcomma, matchLeadingName_ident hs2head hidc]
    have hsne : pyStrip colDef ≠ [] := by rw [hst]; exact List.cons_ne_nil _ _
    have e1 : (pyStrip ((pyStrip colDef).dropLast)).takeWhile isIdentChar =
        ((pyStrip colDef).dropLast).takeWhile isIdentChar :=
      takeWhile_ident_pyStrip hdlhead (identChar_not_ws hidc)
    have hglast : (pyStrip colDef).getLast hsne = ',' := by
      have := List.getLast?_eq_getLast (pyStrip colDef) hsne
      rw [this] at hcomma
      exact Option.some.inj hcomma
    have e2 : (pyStrip colDef).takeWhile isIdentChar =
        ((pyStrip colDef).dropLast).takeWhile isIdentChar := by
      conv_lhs => rw [← List.dropLast_append_getLast hsne]
      rw [takeWhile_ident_append_stop]
      intro a ha
      rw [List.mem_singleton] at ha
      rw [ha, hglast]
      decide
    rw [e1, ← e2]
    exact sbq_of_ident hne hallid
  · rw [if_neg hcomma, matchLeadingName_ident hhead hidc]
    exact sbq_of_ident hne hallid

/--
C5 counterexample: `checksum INT` declares a column whose leading token
`checksum` is none of the constraint keywords, yet the parser returns the
empty string, because the source's constraint regex is a prefix match
(`check` is a prefix of `checksum`).
-/
theorem C5_counterexample :
    parse_column_name_from_def ("checksum INT".toList) = [] ∧
    (pySplitWs ("checksum INT".toList)).head? = some ("checksum".toList) ∧
    ("checksum".toList ∉ [kwConstraint, kwPrimary, kwUnique, kwForeign, kwCheck,
      kwIdx, kwAlter]) := by
  refine ⟨by decide, by decide, by decide⟩

/--
C5 (amended): the Column Definition Parser returns the empty string
whenever the trimmed segment starts (case-insensitively) with one of
`constraint`, `primary\s+key`, `unique`, `foreign\s+key`, `check`,
`index`, `alter` — a PREFIX match rather than a leading-token match, so
for example `checksum` is also rejected; and every trimmed segment whose
first character is a bare identifier character and which does not
prefix-match those keywords yields the non-empty leading identifier run
of the segment.
-/
theorem C5_parser_amended :
    (∀ colDef : Str, isConstraintStart (pyStrip colDef) = true →
       parse_column_name_from_def colDef = []) ∧
    (∀ colDef : Str, isConstraintStart (pyStrip colDef) = false →
       isIdentChar ((pyStrip colDef).headD ' ') = true →
       parse_column_name_from_def colDef = (pyStrip colDef).takeWhile isIdentChar ∧
       (pyStrip colDef).takeWhile isIdentChar ≠ []) := by
  refine ⟨fun colDef h => ?_, fun colDef h1 h2 => parse_ident_head colDef h1 h2⟩
  simp [parse_column_name_from_def, h]

/-- Witness for the amended C5 at two concrete segments. -/
theorem C5_parser_amended_witness :
    (isConstraintStart (pyStrip ("PRIMARY KEY (a)".toList)) = true ∧
     parse_column_name_from_def ("PRIMARY KEY (a)".toList) = []) ∧
    (isConstraintStart (pyStrip (" acheck INT ".toList)) = false ∧
     parse_column_name_from_def (" acheck INT ".toList) = "acheck".toList) :=
  ⟨⟨by decide, C5_parser_amended.1 ("PRIMARY KEY (a)".toList) (by decide)⟩,
   ⟨by decide, by
      have h := C5_parser_amended.2 (" acheck INT ".toList) (by decide) (by decide)
      rw [h.1]
      decide⟩⟩

theorem strFindAux_add (nd : Str) : ∀ (l : Str) (i k : Nat),
    strFindAux nd l (i + k) = (strFindAux nd l i).map (· + k) := by
  intro l
  induction l with
  | nil =>
    intro i k
    by_cases h : nd = [] <;> simp [strFindAux, h]
  | cons h t ih =>
    intro i k
    by_cases hp : nd.isPrefixOf (h :: t)
    · simp [strFindAux, hp]
    · simp only [strFindAux, if_neg hp]
      have : i + k + 1 = (i + 1) + k := by omega
      rw [this, ih]

theorem strFindAux_ge {nd : Str} : ∀ {l : Str} {i j : Nat},
    strFindAux nd l i = some j → i ≤ j := by
  intro l
  induction l with
  | nil =>
    intro i j h
    by_cases hn : nd = [] <;> simp [strFindAux, hn] at h
    omega
  | cons c t ih =>
    intro i j h
    by_cases hp : nd.isPrefixOf (c :: t)
    · simp [strFindAux, hp] at h; omega
    · simp only [strFindAux, if_neg hp] at h
      have := ih h
      omega

theorem strFindAux_found {nd : Str} : ∀ {l : Str} {i j : Nat},
    strFindAux nd l i = some j → nd.isPrefixOf (l.drop (j - i)) = true := by
  intro l
  induction l with
  | nil =>
    intro i j h
    by_cases hn : nd = [] <;> simp [strFindAux, hn] at h
    simp [hn]
  | cons c t ih =>
    intro i j h
    by_cases hp : nd.isPrefixOf (c :: t)
    · simp only [strFindAux, if_pos hp, Option.some.injEq] at h
      subst h
      simpa using hp
    · simp only [strFindAux, if_neg hp] at h
      have hge := strFindAux_ge h
      have := ih h
      have hj : j - i = (j - (i + 1)) + 1 := by omega
      rw [hj]
      simpa using this

theorem strFind_ge {hay nd : Str} {start j : Nat} (h : strFind hay nd start = some j) :
    start ≤ j := strFindAux_ge h

theorem strFind_bound {hay nd : Str} {start j : Nat} (hnd : nd ≠ [])
    (h : strFind hay nd start = some j) :
    j + nd.length ≤ hay.length := by
  have hpos : 0 < nd.length := List.length_pos.mpr hnd
  unfold strFind at h
  have hge := strFindAux_ge h
  have hf := strFindAux_found h
  rw [List.drop_drop] at hf
  have heq : start + (j - start) = j := by omega
  rw [heq] at hf
  have hpre : List.IsPrefix nd (hay.drop j) := by
    rwa [List.isPrefixOf_iff_prefix] at hf
  have hle := hpre.length_le
  rw [List.length_drop] at hle
  omega

theorem strFind_none_end {hay nd : Str} {start : Nat} (hnd : nd ≠ [])
    (h : hay.length ≤ start) : strFind hay nd start = none := by
  unfold strFind
  rw [List.drop_eq_nil_of_le h]
  simp [strFindAux, hnd]

theorem strFind_prefix {hay nd : Str} (hnd : nd ≠ []) (h : nd.isPrefixOf hay = true) :
    strFind hay nd 0 = some 0 := by
  unfold strFind
  rw [List.drop_zero]
  cases hay with
  | nil =>
    rw [List.isPrefixOf_iff_prefix] at h
    exact absurd (List.prefix_nil.mp h) hnd
  | cons c t => simp [strFindAux, h]

theorem isPrefixOf_cons_false {nd : Str} {c0 a : Char} {l : Str}
    (hnd : nd.head? = some c0) (hne : a ≠ c0) : nd.isPrefixOf (a :: l) = false := by
  cases nd with
  | nil => cases hnd
  | cons d nd' =>
    rw [List.head?_cons] at hnd
    cases hnd
    simp [List.isPrefixOf, Ne.symm hne]

theorem strFindAux_skip {nd : Str} {c0 : Char} (hnd : nd.head? = some c0) :
    ∀ (P : Str) (L : Str) (i : Nat), (∀ a ∈ P, a ≠ c0) →
    strFindAux nd (P ++ L) i = strFindAux nd L (i + P.length) := by
  intro P
  induction P with
  | nil => intro L i _; simp
  | cons a P' ih =>
    intro L i hP
    have ha : a ≠ c0 := hP a (List.mem_cons_self a P')
    rw [List.cons_append]
    have hfalse : nd.isPrefixOf (a :: (P' ++ L)) = false := isPrefixOf_cons_false hnd ha
    simp only [strFindAux, hfalse, Bool.false_eq_true, if_false]
    rw [ih L (i + 1) (fun b hb => hP b (List.mem_cons_of_mem a hb))]
    congr 1
    simp
    omega

theorem isPrefixOf_self_append (nd x : Str) : nd.isPrefixOf (nd ++ x) = true := by
  rw [List.isPrefixOf_iff_prefix]
  exact List.prefix_append nd x

theorem parenScanAux_add : ∀ (l : Str) (i k : Nat) (d : Int),
    parenScanAux l (i + k) d = (parenScanAux l i d).map (· + k) := by
  intro l
  induction l with
  | nil => intro i k d; rfl
  | cons c rest ih =>
    intro i k d
    by_cases h1 : c = '('
    · simp only [parenScanAux, if_pos h1]
      have : i + k + 1 = (i + 1) + k := by omega
      rw [this, ih]
    · by_cases h2 : c = ')'
      · simp only [parenScanAux, if_neg h1, if_pos h2]
        by_cases h3 : d - 1 = 0
        · simp [h3]
        · simp only [if_neg h3]
          have : i + k + 1 = (i + 1) + k := by omega
          rw [this, ih]
      · simp only [parenScanAux, if_neg h1, if_neg h2]
        have : i + k + 1 = (i + 1) + k := by omega
        rw [this, ih]

theorem parenScanAux_bound : ∀ {l : Str} {i j : Nat} {d : Int},
    parenScanAux l i d = some j → i ≤ j ∧ j < i + l.length := by
  intro l
  induction l with
  | nil => intro i j d h; cases h
  | cons c rest ih =>
    intro i j d h
    by_cases h1 : c = '('
    · rw [parenScanAux, if_pos h1] at h
      have := ih h
      simp only [List.length_cons]
      omega
    · by_cases h2 : c = ')'
      · rw [parenScanAux, if_neg h1, if_pos h2] at h
        by_cases h3 : d - 1 = 0
        · rw [if_pos h3, Option.some.injEq] at h
          subst h
          simp only [List.length_cons]
          omega
        · rw [if_neg h3] at h
          have := ih h
          simp only [List.length_cons]
          omega
      · rw [parenScanAux, if_neg h1, if_neg h2] at h
        have := ih h
        simp only [List.length_cons]
        omega

theorem parenScanAux_no_close : ∀ {l : Str} (i : Nat) (d : Int),
    (∀ c ∈ l, c ≠ ')') → parenScanAux l i d = none := by
  intro l
  induction l with
  | nil => intro i d _; rfl
  | cons c rest ih =>
    intro i d h
    have hc : c ≠ ')' := h c (List.mem_cons_self c rest)
    by_cases h1 : c = '('
    · rw [parenScanAux, if_pos h1]
      exact ih _ _ (fun a ha => h a (List.mem_cons_of_mem c ha))
    · rw [parenScanAux, if_neg h1, if_neg hc]
      exact ih _ _ (fun a ha => h a (List.mem_cons_of_mem c ha))

theorem parenScanAux_body : ∀ {b : Str} {rest : Str} (i : Nat),
    (∀ c ∈ b, c ≠ '(' ∧ c ≠ ')') →
    parenScanAux (b ++ ')' :: rest) i 1 = some (i + b.length) := by
  intro b
  induction b with
  | nil =>
    intro rest i _
    simp [parenScanAux]
  | cons c b' ih =>
    intro rest i h
    obtain ⟨h1, h2⟩ := h c (List.mem_cons_self c b')
    rw [List.cons_append, parenScanAux, if_neg h1, if_neg h2]
    rw [ih _ (fun a ha => h a (List.mem_cons_of_mem c ha))]
    simp only [List.length_cons]
    congr 1
    omega

theorem parenScanAux_balanced {b rest : Str} (i : Nat)
    (hb : ∀ c ∈ b, c ≠ '(' ∧ c ≠ ')') :
    parenScanAux ('(' :: b ++ ')' :: rest) i 0 = some (i + 1 + b.length) := by
  rw [List.cons_append, parenScanAux, if_pos rfl]
  rw [zero_add, parenScanAux_body (i + 1) hb]

theorem drop_append_len {X Y : Str} (k : Nat) :
    (X ++ Y).drop (X.length + k) = Y.drop k := by
  rw [← List.drop_drop, List.drop_left]

theorem strFind_append_shift (A B nd : Str) (k : Nat) :
    strFind (A ++ B) nd (A.length + k) = (strFind B nd k).map (· + A.length) := by
  unfold strFind
  rw [drop_append_len k, Nat.add_comm A.length k, strFindAux_add]

theorem ctKw_ne_nil : ctKw ≠ [] := by decide

theorem fctbGo_none {text lower : Str} {idx : Nat}
    (h : strFind lower ctKw idx = none) : ∀ f, fctbGo text lower f idx = [] := by
  intro f
  cases f with
  | zero => rfl
  | succ f' => simp [fctbGo, h]

theorem fctbGo_fuel (text lower : Str) (hlen : lower.length = text.length) :
    ∀ f1 f2 idx, text.length + 1 ≤ f1 + idx → text.length + 1 ≤ f2 + idx →
    fctbGo text lower f1 idx = fctbGo text lower f2 idx := by
  intro f1
  induction f1 with
  | zero =>
    intro f2 idx h1 h2
    have hnone : strFind lower ctKw idx = none :=
      strFind_none_end ctKw_ne_nil (by omega)
    rw [fctbGo_none hnone f2]
    rfl
  | succ f1' ih =>
    intro f2 idx h1 h2
    cases f2 with
    | zero =>
      have hnone : strFind lower ctKw idx = none :=
        strFind_none_end ctKw_ne_nil (by omega)
      rw [fctbGo_none hnone (f1' + 1)]
      rfl
    | succ f2' =>
      simp only [fctbGo]
      cases hfind : strFind lower ctKw idx with
      | none => rfl
      | some pos =>
        dsimp only
        have hpos_ge : idx ≤ pos := strFind_ge hfind
        have hct12 : ctKw.length = 12 := rfl
        have hpos_le : pos + 12 ≤ text.length := by
          have hb := strFind_bound ctKw_ne_nil hfind
          rw [hct12, hlen] at hb
          exact hb
        cases hopen : strFind text ['('] pos with
        | none => exact ih f2' (pos + 12) (by omega) (by omega)
        | some openPos =>
          dsimp only
          have ho_ge : pos ≤ openPos := strFind_ge hopen
          have ho_le : openPos + 1 ≤ text.length := by
            have hb := strFind_bound (by decide) hopen
            simpa using hb
          cases hscan : parenScanAux (text.drop openPos) openPos 0 with
          | none => exact ih f2' (pos + 12) (by omega) (by omega)
          | some endPos =>
            dsimp only
            obtain ⟨he1, he2⟩ := parenScanAux_bound hscan
            rw [List.length_drop] at he2
            rw [ih f2' (endPos + 1) (by omega) (by omega)]

theorem fctbGo_shift (A B : Str) : ∀ (f k : Nat),
    fctbGo (A ++ B) ((A ++ B).map Char.toLower) f (A.length + k) =
      fctbGo B (B.map Char.toLower) f k := by
  intro f
  induction f with
  | zero => intro k; rfl
  | succ f' ih =>
    intro k
    have hmapA : (A ++ B).map Char.toLower = A.map Char.toLower ++ B.map Char.toLower :=
      List.map_append _ _ _
    have hlenA : (A.map Char.toLower).length = A.length := List.length_map _ _
    have hfind : strFind ((A ++ B).map Char.toLower) ctKw (A.length + k) =
        (strFind (B.map Char.toLower) ctKw k).map (· + A.length) := by
      rw [hmapA, ← hlenA, strFind_append_shift, hlenA]
    simp only [fctbGo]
    rw [hfind]
    cases hf : strFind (B.map Char.toLower) ctKw k with
    | none => rfl
    | some pos =>
      simp only [Option.map_some']
      have hopen : strFind (A ++ B) ['('] (pos + A.length) =
          (strFind B ['('] pos).map (· + A.length) := by
        rw [Nat.add_comm pos A.length, strFind_append_shift]
      rw [hopen]
      cases ho : strFind B ['('] pos with
      | none =>
        simp only [Option.map_none']
        have harith : pos + A.length + 12 = A.length + (pos + 12) := by omega
        rw [harith, ih]
      | some openPos =>
        simp only [Option.map_some']
        have hdrop1 : (A ++ B).drop (pos + A.length) = B.drop pos := by
          rw [Nat.add_comm pos A.length, drop_append_len]
        have hdrop2 : (A ++ B).drop (openPos + A.length) = B.drop openPos := by
          rw [Nat.add_comm openPos A.length, drop_append_len]
        have htake : openPos + A.length - (pos + A.length) = openPos - pos := by omega
        rw [hdrop1, htake]
        have hscan : parenScanAux (B.drop openPos) (openPos + A.length) 0 =
            (parenScanAux (B.drop openPos) openPos 0).map (· + A.length) :=
          parenScanAux_add _ _ _ _
        rw [hdrop2, hscan]
        cases hs : parenScanAux (B.drop openPos) openPos 0 with
        | none =>
          simp only [Option.map_none']
          have harith : pos + A.length + 12 = A.length + (pos + 12) := by omega
          rw [harith, ih]
        | some endPos =>
          simp only [Option.map_some']
          have hdrop3 : (A ++ B).drop (openPos + A.length + 1) = B.drop (openPos + 1) := by
            have : openPos + A.length + 1 = A.length + (openPos + 1) := by omega
            rw [this, drop_append_len]
          have htake2 : endPos + A.length - (openPos + A.length + 1) = endPos - (openPos + 1) := by
            omega
          rw [hdrop3, htake2]
          have harith : endPos + A.length + 1 = A.length + (endPos + 1) := by omega
          rw [harith, ih]

theorem takeWhile_dropWhile_append {p : Char → Bool} {x y : Str}
    (hx : ∀ a ∈ x, p a = true) (hy : ∀ c, y.head? = some c → p c = false) :
    (x ++ y).takeWhile p = x ∧ (x ++ y).dropWhile p = y := by
  induction x with
  | nil =>
    simp only [List.nil_append]
    cases y with
    | nil => exact ⟨rfl, rfl⟩
    | cons a y' =>
      have := hy a rfl
      simp [List.takeWhile_cons, List.dropWhile_cons, this]
  | cons c x' ih =>
    have hc : p c = true := hx c (List.mem_cons_self c x')
    obtain ⟨ht, hd⟩ := ih (fun a ha => hx a (List.mem_cons_of_mem c ha))
    simp [List.takeWhile_cons, List.dropWhile_cons, hc, ht, hd]

theorem ident_tbl {c : Char} (h : isIdentChar c = true) : isTblNameChar c = true := by
  rw [isIdentChar] at h
  rw [isTblNameChar]
  rcases Bool.or_eq_true_iff.mp h with h' | h'
  · rcases Bool.or_eq_true_iff.mp h' with h'' | h'' <;> simp [h'']
  · simp [h']

theorem strFindAux_starts {nd L : Str} (i : Nat) (hnd : nd ≠ [])
    (h : nd.isPrefixOf L = true) : strFindAux nd L i = some i := by
  cases L with
  | nil =>
    rw [List.isPrefixOf_iff_prefix] at h
    exact absurd (List.prefix_nil.mp h) hnd
  | cons c t => simp [strFindAux, h]

theorem matchCreateAt_gen {c : Char} {t' : Str} (hc : isIdentChar c = true)
    (ht : ∀ a ∈ t', isIdentChar a = true) :
    matchCreateAt ("CREATE TABLE ".toList ++ ((c :: t') ++ [' '])) = some (c :: t') := by
  have h1 : dropCI kwCreate ("CREATE TABLE ".toList ++ ((c :: t') ++ [' '])) =
      some (" TABLE ".toList ++ ((c :: t') ++ [' '])) := rfl
  have h2 : ws1 (" TABLE ".toList ++ ((c :: t') ++ [' '])) =
      some ("TABLE ".toList ++ ((c :: t') ++ [' '])) := rfl
  have h3 : dropCI kwTable ("TABLE ".toList ++ ((c :: t') ++ [' '])) =
      some (" ".toList ++ ((c :: t') ++ [' '])) := rfl
  have h4 : ws1 (" ".toList ++ ((c :: t') ++ [' '])) =
      some (((c :: t') ++ [' ']).dropWhile isPyWs) := rfl
  have h5 : ((c :: t') ++ [' ']).dropWhile isPyWs = (c :: t') ++ [' '] := by
    rw [List.cons_append, List.dropWhile_cons, identChar_not_ws hc]
    simp
  obtain ⟨htake, hdrop⟩ := takeWhile_dropWhile_append (p := isTblNameChar)
    (x := c :: t') (y := [' '])
    (fun a ha => ident_tbl (by
      rcases List.mem_cons.mp ha with h' | h'
      · rw [h']; exact hc
      · exact ht a h'))
    (fun e he => by cases he; decide)
  simp only [matchCreateAt, h1, h2, h3, h4, h5, htake, hdrop]
  simp
  decide

theorem searchCreate_gen {c : Char} {t' : Str} (hc : isIdentChar c = true)
    (ht : ∀ a ∈ t', isIdentChar a = true) :
    searchCreate ("CREATE TABLE ".toList ++ ((c :: t') ++ [' '])) = some (c :: t') := by
  have he : "CREATE TABLE ".toList ++ ((c :: t') ++ [' ']) =
      'C' :: ("REATE TABLE ".toList ++ ((c :: t') ++ [' '])) := rfl
  rw [he, searchCreate, ← he, matchCreateAt_gen hc ht]

theorem rawTableOf_gen {t : Str} (ht1 : t ≠ []) (ht2 : ∀ a ∈ t, isIdentChar a = true) :
    rawTableOf ("CREATE TABLE ".toList ++ t ++ [' ']) = t := by
  obtain ⟨c, t', rfl⟩ : ∃ c t', t = c :: t' := by
    cases t with
    | nil => exact absurd rfl ht1
    | cons c t' => exact ⟨c, t', rfl⟩
  have hassoc : "CREATE TABLE ".toList ++ (c :: t') ++ [' '] =
      "CREATE TABLE ".toList ++ ((c :: t') ++ [' ']) := by
    rw [List.append_assoc]
  rw [hassoc, rawTableOf,
    searchCreate_gen (ht2 c (List.mem_cons_self c t')) (fun a ha => ht2 a (List.mem_cons_of_mem c ha))]

theorem preT_no_paren {t : Str} (ht2 : ∀ a ∈ t, isIdentChar a = true) :
    ∀ a ∈ preT t, a ≠ '(' := by
  intro a ha
  rw [preT] at ha
  rcases List.mem_append.mp ha with h | h
  · rcases List.mem_append.mp h with h' | h'
    · intro he
      subst he
      revert h'
      decide
    · intro he
      subst he
      exact absurd (ht2 _ h') (by decide)
  · rw [List.mem_singleton] at h
    subst h
    decide

theorem strFind_open_paren {pre rest : Str} (h : ∀ a ∈ pre, a ≠ '(') :
    strFind (pre ++ '(' :: rest) ['('] 0 = some pre.length := by
  unfold strFind
  rw [List.drop_zero]
  rw [@strFindAux_skip ['('] '(' rfl pre ('(' :: rest) 0 h]
  rw [strFindAux_starts _ (by decide) (by simp [List.isPrefixOf])]
  simp

theorem fctb_stepW (W t b R : Str) (f : Nat)
    (hW : ∀ a ∈ W, Char.toLower a ≠ 'c')
    (ht1 : t ≠ []) (ht2 : ∀ a ∈ t, isIdentChar a = true)
    (hb : ∀ a ∈ b, a ≠ '(' ∧ a ≠ ')') :
    fctbGo (W ++ genStmt t b ++ R) ((W ++ genStmt t b ++ R).map Char.toLower) (f + 1) 0 =
      { table_raw := t, cols_block := b } ::
        fctbGo (W ++ genStmt t b ++ R) ((W ++ genStmt t b ++ R).map Char.toLower) f
          (W.length + (genStmt t b).length) := by
  have htext : W ++ genStmt t b ++ R = W ++ (genStmt t b ++ R) := List.append_assoc _ _ _
  have hXsplit : genStmt t b ++ R = preT t ++ ('(' :: (b ++ [')'] ++ R)) := by
    rw [genStmt, List.append_assoc]
    simp
  have hfind : strFind ((W ++ genStmt t b ++ R).map Char.toLower) ctKw 0 = some W.length := by
    rw [htext, List.map_append]
    unfold strFind
    rw [List.drop_zero]
    rw [@strFindAux_skip ctKw 'c' rfl (W.map Char.toLower) _ 0
      (by
        intro a ha
        rw [List.mem_map] at ha
        obtain ⟨w, hw, rfl⟩ := ha
        exact hW w hw)]
    rw [strFindAux_starts _ ctKw_ne_nil (by
      rw [hXsplit, List.map_append, preT, List.map_append, List.map_append]
      have hk : ("CREATE TABLE ".toList).map Char.toLower = ctKw ++ [' '] := rfl
      rw [hk, List.append_assoc, List.append_assoc]
      exact isPrefixOf_self_append _ _)]
    simp

  have hopen : strFind (W ++ genStmt t b ++ R) ['('] W.length =
      some (W.length + (preT t).length) := by
    rw [htext]
    have : W.length = W.length + 0 := by omega
    rw [this, strFind_append_shift]
    rw [hXsplit, strFind_open_paren (preT_no_paren ht2)]
    simp [Nat.add_comm]

  have hdrop_pos : (W ++ genStmt t b ++ R).drop W.length = genStmt t b ++ R := by
    rw [htext]
    have : W.length = W.length + 0 := by omega
    rw [this, drop_append_len, List.drop_zero]

  have hpre : ((W ++ genStmt t b ++ R).drop W.length).take
      (W.length + (preT t).length - W.length) = preT t := by
    rw [hdrop_pos, hXsplit]
    have : W.length + (preT t).length - W.length = (preT t).length := by omega
    rw [this, List.take_left]

  have hraw : rawTableOf (preT t) = t := rawTableOf_gen ht1 ht2

  have hscan : parenScanAux ((W ++ genStmt t b ++ R).drop (W.length + (preT t).length))
      (W.length + (preT t).length) 0 = some (W.length + (preT t).length + 1 + b.length) := by
    have hdrop2 : (W ++ genStmt t b ++ R).drop (W.length + (preT t).length) =
        '(' :: (b ++ [')'] ++ R) := by
      rw [htext, drop_append_len, hXsplit, List.drop_left]
    rw [hdrop2]
    have hform : '(' :: (b ++ [')'] ++ R) = '(' :: b ++ ')' :: R := by simp
    rw [hform]
    exact parenScanAux_balanced _ hb

  have hcols : ((W ++ genStmt t b ++ R).drop (W.length + (preT t).length + 1)).take
      (W.length + (preT t).length + 1 + b.length - (W.length + (preT t).length + 1)) = b := by
    have hdrop3 : (W ++ genStmt t b ++ R).drop (W.length + (preT t).length + 1) =
        b ++ ([')'] ++ R) := by
      have hsplit2 : W ++ genStmt t b ++ R = (W ++ preT t ++ ['(']) ++ (b ++ ([')'] ++ R)) := by
        rw [genStmt]
        simp
      have hlen : (W ++ preT t ++ ['(']).length = W.length + (preT t).length + 1 := by
        simp
        omega
      rw [hsplit2, ← hlen]
      have : (W ++ preT t ++ ['(']).length = (W ++ preT t ++ ['(']).length + 0 := by omega
      rw [this, drop_append_len, List.drop_zero]
    rw [hdrop3]
    have : W.length + (preT t).length + 1 + b.length - (W.length + (preT t).length + 1) =
        b.length := by omega
    rw [this, List.take_left]

  have hlen_gen : W.length + (genStmt t b).length =
      W.length + (preT t).length + 1 + b.length + 1 := by
    rw [genStmt]
    simp
    omega

  conv_lhs => rw [fctbGo]
  simp only [hfind, hopen, hpre, hraw, hscan, hcols]
  rw [hlen_gen]

theorem fctb_block (W t b R : Str) (f : Nat)
    (hW : ∀ a ∈ W, Char.toLower a ≠ 'c')
    (ht1 : t ≠ []) (ht2 : ∀ a ∈ t, isIdentChar a = true)
    (hb : ∀ a ∈ b, a ≠ '(' ∧ a ≠ ')') :
    fctbGo (W ++ genStmt t b ++ R) ((W ++ genStmt t b ++ R).map Char.toLower) (f + 1) 0 =
      { table_raw := t, cols_block := b } :: fctbGo R (R.map Char.toLower) f 0 := by
  rw [fctb_stepW W t b R f hW ht1 ht2 hb]
  congr 1
  have hlen : W.length + (genStmt t b).length = (W ++ genStmt t b).length + 0 := by
    simp
  rw [hlen]
  exact fctbGo_shift (W ++ genStmt t b) R f 0

theorem genStmt_length (t b : Str) : (genStmt t b).length = t.length + b.length + 16 := by
  rw [genStmt, preT]
  simp
  omega

theorem fctbGo_nil (f idx : Nat) : fctbGo [] [] f idx = [] := by
  apply fctbGo_none
  exact strFind_none_end ctKw_ne_nil (by simp)

/-- A single well-formed generated statement yields exactly its block. -/
theorem blocks_single (t b : Str) (ht1 : t ≠ []) (ht2 : ∀ a ∈ t, isIdentChar a = true)
    (hb : ∀ a ∈ b, a ≠ '(' ∧ a ≠ ')') :
    find_create_table_blocks (genStmt t b) = [{ table_raw := t, cols_block := b }] := by
  have hG : ([] : Str) ++ genStmt t b ++ [] = genStmt t b := by simp
  rw [find_create_table_blocks, ← hG]
  rw [fctb_block [] t b [] _ (by simp) ht1 ht2 hb]
  rw [show (([] : Str).map Char.toLower) = ([] : Str) from rfl]
  rw [fctbGo_nil]

/-- Two generated statements separated by a space yield their two blocks. -/
theorem blocks_two (t1 b1 t2 b2 : Str)
    (ht11 : t1 ≠ []) (ht12 : ∀ a ∈ t1, isIdentChar a = true)
    (hb1 : ∀ a ∈ b1, a ≠ '(' ∧ a ≠ ')')
    (ht21 : t2 ≠ []) (ht22 : ∀ a ∈ t2, isIdentChar a = true)
    (hb2 : ∀ a ∈ b2, a ≠ '(' ∧ a ≠ ')') :
    find_create_table_blocks (genStmt t1 b1 ++ ' ' :: genStmt t2 b2) =
      [{ table_raw := t1, cols_block := b1 }, { table_raw := t2, cols_block := b2 }] := by
  have hR : (' ' :: genStmt t2 b2) = [' '] ++ genStmt t2 b2 ++ [] := by simp
  have hT : genStmt t1 b1 ++ ' ' :: genStmt t2 b2 =
      [] ++ genStmt t1 b1 ++ ([' '] ++ genStmt t2 b2 ++ []) := by simp
  rw [find_create_table_blocks, hT]
  rw [fctb_block [] t1 b1 ([' '] ++ genStmt t2 b2 ++ []) _ (by simp) ht11 ht12 hb1]
  congr 1
  have hlen1 : ([] ++ genStmt t1 b1 ++ ([' '] ++ genStmt t2 b2 ++ [])).length =
      (genStmt t1 b1).length + (genStmt t2 b2).length + 1 := by
    simp
    omega
  have hlen2 : ([' '] ++ genStmt t2 b2 ++ []).length = (genStmt t2 b2).length + 1 := by
    simp
  have hfuel := fctbGo_fuel ([' '] ++ genStmt t2 b2 ++ [])
      (([' '] ++ genStmt t2 b2 ++ []).map Char.toLower) (List.length_map _ _)
      (([] ++ genStmt t1 b1 ++ ([' '] ++ genStmt t2 b2 ++ [])).length)
      (([' '] ++ genStmt t2 b2 ++ []).length + 1) 0
      (by
        rw [hlen1, hlen2]
        have := genStmt_length t1 b1
        omega)
      (by omega)
  rw [hfuel]
  rw [fctb_block [' '] t2 b2 [] _ (by decide) ht21 ht22 hb2]
  rw [show (([] : Str).map Char.toLower) = ([] : Str) from rfl]
  rw [fctbGo_nil]

example : genStmt ("t".toList) ("a INT".toList) = "CREATE TABLE t (a INT)".toList := by decide

theorem plain_spec {c : Char} (h : plainChar c = true) :
    c ≠ sqc ∧ c ≠ '"' ∧ c ≠ '[' ∧ c ≠ ']' ∧ c ≠ '(' ∧ c ≠ ')' ∧ c ≠ ',' := by
  rw [plainChar] at h
  simp only [Bool.not_eq_true', Bool.or_eq_false_iff, decide_eq_false_iff_not] at h
  tauto

theorem stcGo_chunk {chunk : Str} (h : ∀ c ∈ chunk, plainChar c = true) :
    ∀ (rest cur : Str) (acc : List Str),
    stcGo (chunk ++ rest) 0 false false false cur acc =
      stcGo rest 0 false false false (cur ++ chunk) acc := by
  induction chunk with
  | nil => intro rest cur acc; simp
  | cons c ch' ih =>
    intro rest cur acc
    obtain ⟨h1, h2, h3, h4, h5, h6, h7⟩ := plain_spec (h c (List.mem_cons_self c ch'))
    rw [List.cons_append, stcGo]
    simp only [h1, h2, h3, h4, h5, h6, h7, decide_False, Bool.false_and, Bool.and_false,
      Bool.not_false, Bool.and_true, Bool.true_and, Bool.false_or, Bool.or_false,
      Bool.or_self, if_false, eq_self_iff_true, decide_True, Bool.not_true]
    rw [ih (fun a ha => h a (List.mem_cons_of_mem c ha)) rest (cur ++ [c]) acc,
      List.append_assoc]
    rfl

theorem stcGo_comma (rest cur : Str) (acc : List Str) :
    stcGo (',' :: rest) 0 false false false cur acc =
      stcGo rest 0 false false false []
        (if pyStrip cur = [] then acc else acc ++ [pyStrip cur]) := by
  rw [stcGo]
  have h1 : (',' = sqc) = False := by decide
  have h2 : (',' = '"') = False := by decide
  have h3 : (',' = '[') = False := by decide
  have h4 : (',' = ']') = False := by decide
  have h5 : (',' = '(') = False := by decide
  have h6 : (',' = ')') = False := by decide
  simp only [h1, h2, h3, h4, h5, h6, decide_False, Bool.false_and, Bool.and_false,
    Bool.not_false, Bool.and_true, Bool.true_and, Bool.false_or, Bool.or_false,
    Bool.or_self, if_false, decide_True, Bool.and_self]
  simp

theorem pyStrip_cons_ws {a : Char} {x : Str} (ha : isPyWs a = true) :
    pyStrip (a :: x) = pyStrip x := by
  unfold pyStrip
  rw [List.dropWhile_cons, ha]
  simp

theorem pyStrip_ws_append {w : Str} (hw : ∀ a ∈ w, isPyWs a = true) (s : Str) :
    pyStrip (w ++ s) = pyStrip s := by
  induction w with
  | nil => simp
  | cons a w' ih =>
    rw [List.cons_append, pyStrip_cons_ws (hw a (List.mem_cons_self a w'))]
    exact ih (fun b hb => hw b (List.mem_cons_of_mem a hb))

theorem stc_join (segs : List Str)
    (hseg : ∀ s ∈ segs, s ≠ [] ∧ (∀ c ∈ s, plainChar c = true) ∧ pyStrip s = s) :
    segs ≠ [] →
    ∀ cur acc, (∀ a ∈ cur, isPyWs a = true) →
    stcGo (joinComma segs) 0 false false false cur acc = acc ++ segs := by
  induction segs with
  | nil => intro h; exact absurd rfl h
  | cons s rest ih =>
    intro _ cur acc hcur
    obtain ⟨hs1, hs2, hs3⟩ := hseg s (List.mem_cons_self s rest)
    have hstrip : pyStrip (cur ++ s) = s := by
      rw [pyStrip_ws_append hcur s, hs3]
    cases rest with
    | nil =>
      have hj : joinComma [s] = s := rfl
      rw [hj]
      have := stcGo_chunk hs2 [] cur acc
      rw [List.append_nil] at this
      rw [this, stcGo, hstrip, if_neg hs1]
    | cons s2 rest2 =>
      have hj : joinComma (s :: s2 :: rest2) = s ++ ',' :: ' ' :: joinComma (s2 :: rest2) := rfl
      rw [hj]
      rw [stcGo_chunk hs2 (',' :: ' ' :: joinComma (s2 :: rest2)) cur acc]
      rw [stcGo_comma, hstrip, if_neg hs1]
      have hsp : (' ' :: joinComma (s2 :: rest2)) = [' '] ++ joinComma (s2 :: rest2) := rfl
      rw [hsp, stcGo_chunk (by intro a ha; rw [List.mem_singleton] at ha; subst ha; decide)
        (joinComma (s2 :: rest2)) [] (acc ++ [s])]
      rw [List.nil_append]
      rw [ih (fun u hu => hseg u (List.mem_cons_of_mem s hu)) (List.cons_ne_nil s2 rest2)
        [' '] (acc ++ [s]) (by intro a ha; rw [List.mem_singleton] at ha; subst ha; decide)]
      simp

/-- The Top-Level Splitter recovers the segments of a `", "`-joined body. -/
theorem split_join (segs : List Str) (hne : segs ≠ [])
    (hseg : ∀ s ∈ segs, s ≠ [] ∧ (∀ c ∈ s, plainChar c = true) ∧ pyStrip s = s) :
    split_top_level_commas (joinComma segs) = segs := by
  rw [split_top_level_commas, stc_join segs hseg hne [] [] (by simp)]
  simp

theorem firstOcc_cons (x : Str) (xs : List Str) :
    firstOccurrences (x :: xs) = x :: (firstOccurrences xs).filter (fun y => y ≠ x) := rfl

theorem firstOcc_filter (x : Str) (l : List Str) :
    firstOccurrences (l.filter (fun y => y ≠ x)) =
      (firstOccurrences l).filter (fun y => y ≠ x) := by
  induction l with
  | nil => rfl
  | cons y l' ih =>
    by_cases hyx : y = x
    · subst hyx
      have hd : (decide (y ≠ y)) = false := by simp
      rw [List.filter_cons, hd]
      simp only [Bool.false_eq_true, if_false]
      rw [ih, firstOcc_cons]
      rw [List.filter_cons, hd]
      simp only [Bool.false_eq_true, if_false]
      rw [List.filter_filter]
      apply List.filter_congr
      intro a _
      rw [Bool.and_self]
    · have hd : (decide (y ≠ x)) = true := by simp [hyx]
      rw [List.filter_cons, hd]
      simp only [if_true]
      rw [firstOcc_cons, firstOcc_cons, ih]
      rw [List.filter_cons, hd]
      simp only [if_true]
      congr 1
      rw [List.filter_filter, List.filter_filter]
      apply List.filter_congr
      intro a _
      rw [Bool.and_comm]

theorem collect_fold (names : List Str) : ∀ acc : List Str,
    (∀ n ∈ names, n ≠ []) →
    names.foldl
      (fun cols n => if n = [] then cols else if n ∈ cols then cols else cols ++ [n]) acc
      = acc ++ firstOccurrences (names.filter (fun n => ¬ (n ∈ acc))) := by
  induction names with
  | nil => intro acc _; simp [firstOccurrences]
  | cons x xs ih =>
    intro acc hne
    have hxne : x ≠ [] := hne x (List.mem_cons_self x xs)
    have hrest : ∀ n ∈ xs, n ≠ [] := fun n hn => hne n (List.mem_cons_of_mem x hn)
    simp only [List.foldl_cons, if_neg hxne]
    by_cases hmem : x ∈ acc
    · rw [if_pos hmem, ih acc hrest]
      congr 2
      rw [List.filter_cons]
      have hd : (decide ¬(x ∈ acc)) = false := by simp [hmem]
      rw [hd]
      simp
    · rw [if_neg hmem, ih (acc ++ [x]) hrest]
      rw [List.filter_cons]
      have hd : (decide ¬(x ∈ acc)) = true := by simp [hmem]
      rw [hd]
      simp only [if_true]
      rw [List.append_assoc]
      congr 1
      have hf : xs.filter (fun n => ¬ (n ∈ acc ++ [x])) =
          (xs.filter (fun n => ¬ (n ∈ acc))).filter (fun n => n ≠ x) := by
        rw [List.filter_filter]
        apply List.filter_congr
        intro a _
        simp only [List.mem_append, List.mem_singleton, not_or, decide_not]
        cases hax : decide (a = x) <;> cases haa : decide (a ∈ acc) <;>
          simp_all
      rw [hf, firstOcc_filter, firstOcc_cons]
      rfl

theorem collectCols_eq (parts : List Str)
    (h : ∀ p ∈ parts, parse_column_name_from_def p ≠ []) :
    collectCols parts = firstOccurrences (parts.map parse_column_name_from_def) := by
  have hfold : collectCols parts =
      (parts.map parse_column_name_from_def).foldl
        (fun cols n => if n = [] then cols else if n ∈ cols then cols else cols ++ [n]) [] := by
    rw [collectCols, List.foldl_map]
  rw [hfold, collect_fold _ [] (fun n hn => by
    rw [List.mem_map] at hn
    obtain ⟨p, hp, rfl⟩ := hn
    exact h p hp)]
  rw [List.nil_append]
  congr 1
  apply List.filter_eq_self.mpr
  intro a _
  simp

theorem pyStrip_eq_self_ends {s : Str} (hh : ∀ c, s.head? = some c → isPyWs c = false)
    (hl : ∀ c, s.getLast? = some c → isPyWs c = false) : pyStrip s = s := by
  have h1 : s.dropWhile isPyWs = s := dropWhile_eq_self_head hh
  have h2 : s.reverse.dropWhile isPyWs = s.reverse :=
    dropWhile_eq_self_head (fun c hc => by rw [List.head?_reverse] at hc; exact hl c hc)
  show ((s.dropWhile isPyWs).reverse.dropWhile isPyWs).reverse = s
  rw [h1, h2, List.reverse_reverse]

theorem head?_append_left {x y : Str} (hx : x ≠ []) : (x ++ y).head? = x.head? := by
  cases x with
  | nil => exact absurd rfl hx
  | cons c t => rfl

theorem mem_joinComma : ∀ {segs : List Str} {a : Char}, a ∈ joinComma segs →
    (∃ s ∈ segs, a ∈ s) ∨ a = ',' ∨ a = ' ' := by
  intro segs
  induction segs with
  | nil => intro a ha; cases ha
  | cons s rest ih =>
    intro a ha
    cases rest with
    | nil =>
      left
      exact ⟨s, List.mem_cons_self s [], ha⟩
    | cons s2 rest2 =>
      have hj : joinComma (s :: s2 :: rest2) = s ++ ',' :: ' ' :: joinComma (s2 :: rest2) := rfl
      rw [hj] at ha
      rcases List.mem_append.mp ha with h | h
      · exact Or.inl ⟨s, List.mem_cons_self s _, h⟩
      · rcases List.mem_cons.mp h with h' | h'
        · exact Or.inr (Or.inl h')
        · rcases List.mem_cons.mp h' with h'' | h''
          · exact Or.inr (Or.inr h'')
          · rcases ih h'' with ⟨u, hu, hau⟩ | h''' 
            · exact Or.inl ⟨u, List.mem_cons_of_mem s hu, hau⟩
            · exact Or.inr h'''

theorem plain_of_ident {c : Char} (h : isIdentChar c = true) : plainChar c = true := by
  rw [plainChar]
  have h1 : c ≠ sqc := fun he => absurd (he ▸ h) (by decide)
  have h2 : c ≠ '"' := fun he => absurd (he ▸ h) (by decide)
  have h3 : c ≠ '[' := fun he => absurd (he ▸ h) (by decide)
  have h4 : c ≠ ']' := fun he => absurd (he ▸ h) (by decide)
  have h5 : c ≠ '(' := fun he => absurd (he ▸ h) (by decide)
  have h6 : c ≠ ')' := fun he => absurd (he ▸ h) (by decide)
  have h7 : c ≠ ',' := fun he => absurd (he ▸ h) (by decide)
  simp [h1, h2, h3, h4, h5, h6, h7]

theorem colSeg_facts {p : Str × Str}
    (h1 : p.1 ≠ []) (h2 : ∀ a ∈ p.1, isIdentChar a = true)
    (h3 : p.2 ≠ []) (h4 : ∀ a ∈ p.2, isIdentChar a = true) :
    colSeg p ≠ [] ∧ (∀ c ∈ colSeg p, plainChar c = true) ∧ pyStrip (colSeg p) = colSeg p := by
  obtain ⟨c, t', hct⟩ : ∃ c t', p.1 = c :: t' := by
    cases hc : p.1 with
    | nil => exact absurd hc h1
    | cons c t' => exact ⟨c, t', rfl⟩
  have hmem : ∀ a ∈ colSeg p, a ∈ p.1 ∨ a = ' ' ∨ a ∈ p.2 := by
    intro a ha
    rw [colSeg] at ha
    rcases List.mem_append.mp ha with h | h
    · exact Or.inl h
    · rcases List.mem_cons.mp h with h' | h'
      · exact Or.inr (Or.inl h')
      · exact Or.inr (Or.inr h')
  refine ⟨?_, ?_, ?_⟩
  · rw [colSeg, hct]
    exact List.cons_ne_nil _ _
  · intro a ha
    rcases hmem a ha with h | h | h
    · exact plain_of_ident (h2 a h)
    · subst h; decide
    · exact plain_of_ident (h4 a h)
  · apply pyStrip_eq_self_ends
    · intro e he
      rw [colSeg, head?_append_left h1, hct, List.head?_cons] at he
      have hce : c = e := Option.some.inj he
      rw [← hce]
      exact identChar_not_ws (h2 c (hct ▸ List.mem_cons_self c t'))
    · intro e he
      rw [colSeg, List.getLast?_append_of_ne_nil _ (List.cons_ne_nil ' ' p.2)] at he
      have : (' ' :: p.2).getLast? = p.2.getLast? := by
        rw [show (' ' :: p.2) = [' '] ++ p.2 from rfl,
          List.getLast?_append_of_ne_nil _ h3]
      rw [this] at he
      exact identChar_not_ws (h4 e (List.mem_of_mem_getLast? (by rw [he]; rfl)))

theorem parse_colSeg {p : Str × Str}
    (h1 : p.1 ≠ []) (h2 : ∀ a ∈ p.1, isIdentChar a = true)
    (h3 : p.2 ≠ []) (h4 : ∀ a ∈ p.2, isIdentChar a = true)
    (h5 : isConstraintStart (colSeg p) = false) :
    parse_column_name_from_def (colSeg p) = p.1 := by
  obtain ⟨hs1, hs2, hs3⟩ := colSeg_facts h1 h2 h3 h4
  obtain ⟨c, t', hct⟩ : ∃ c t', p.1 = c :: t' := by
    cases hc : p.1 with
    | nil => exact absurd hc h1
    | cons c t' => exact ⟨c, t', rfl⟩
  have hcs : isConstraintStart (pyStrip (colSeg p)) = false := by rw [hs3]; exact h5
  have hid : isIdentChar ((pyStrip (colSeg p)).headD ' ') = true := by
    rw [hs3, colSeg, hct, List.cons_append]
    exact h2 c (hct ▸ List.mem_cons_self c t')
  have hp := parse_ident_head (colSeg p) hcs hid
  rw [hp.1, hs3, colSeg]
  exact (takeWhile_dropWhile_append h2 (fun e he => by
    have : ' ' = e := Option.some.inj he
    rw [← this]
    decide)).1

/--
C1: for a well-formed generated `CREATE TABLE t (c1 T1, c2 T2, ...)`,
extraction yields exactly `{t : [c1, c2, ...]}`, in declaration order and
de-duplicated by first occurrence.
-/
theorem C1_wellformed_extraction (t : Str) (specs : List (Str × Str))
    (ht1 : t ≠ []) (ht2 : ∀ a ∈ t, isIdentChar a = true)
    (hne : specs ≠ [])
    (hsp : ∀ p ∈ specs, p.1 ≠ [] ∧ (∀ a ∈ p.1, isIdentChar a = true) ∧
       p.2 ≠ [] ∧ (∀ a ∈ p.2, isIdentChar a = true) ∧
       isConstraintStart (colSeg p) = false) :
    ddl_to_schema (genStmt t (genBody specs)) =
      [(t, firstOccurrences (specs.map Prod.fst))] := by
  have hbody : ∀ a ∈ genBody specs, a ≠ '(' ∧ a ≠ ')' := by
    intro a ha
    rw [genBody] at ha
    rcases mem_joinComma ha with ⟨s, hs, has⟩ | h | h
    · rw [List.mem_map] at hs
      obtain ⟨p, hp, rfl⟩ := hs
      obtain ⟨h1, h2, h3, h4, h5⟩ := hsp p hp
      obtain ⟨q1, q2, q3, q4, q5, q6, q7⟩ :=
        plain_spec ((colSeg_facts h1 h2 h3 h4).2.1 a has)
      exact ⟨q5, q6⟩
    · subst h; exact ⟨by decide, by decide⟩
    · subst h; exact ⟨by decide, by decide⟩
  have hblocks := blocks_single t (genBody specs) ht1 ht2 hbody
  rw [ddl_to_schema, hblocks]
  simp only [List.foldl_cons, List.foldl_nil]
  have hsegs : ∀ s ∈ specs.map colSeg,
      s ≠ [] ∧ (∀ c ∈ s, plainChar c = true) ∧ pyStrip s = s := by
    intro s hs
    rw [List.mem_map] at hs
    obtain ⟨p, hp, rfl⟩ := hs
    obtain ⟨h1, h2, h3, h4, _⟩ := hsp p hp
    exact colSeg_facts h1 h2 h3 h4
  have hsegne : specs.map colSeg ≠ [] := by
    cases specs with
    | nil => exact absurd rfl hne
    | cons p r => exact List.cons_ne_nil _ _
  have hsplit : split_top_level_commas (genBody specs) = specs.map colSeg := by
    rw [genBody]
    exact split_join _ hsegne hsegs
  have hparse : ∀ p ∈ specs, parse_column_name_from_def (colSeg p) = p.1 := by
    intro p hp
    obtain ⟨h1, h2, h3, h4, h5⟩ := hsp p hp
    exact parse_colSeg h1 h2 h3 h4 h5
  have hmap : (specs.map colSeg).map parse_column_name_from_def = specs.map Prod.fst := by
    rw [List.map_map]
    exact List.map_congr_left (fun p hp => hparse p hp)
  have hcols : collectCols (split_top_level_commas (genBody specs)) =
      firstOccurrences (specs.map Prod.fst) := by
    rw [hsplit, collectCols_eq _ (fun s hs => by
      rw [List.mem_map] at hs
      obtain ⟨p, hp, rfl⟩ := hs
      rw [hparse p hp]
      exact (hsp p hp).1), hmap]
  have hocc_ne : firstOccurrences (specs.map Prod.fst) ≠ [] := by
    cases specs with
    | nil => exact absurd rfl hne
    | cons p r =>
      rw [List.map_cons, firstOcc_cons]
      exact List.cons_ne_nil _ _
  show (if collectCols (split_top_level_commas (genBody specs)) = [] then []
    else dictSet [] (strip_brackets_and_quotes t)
      (collectCols (split_top_level_commas (genBody specs)))) =
    [(t, firstOccurrences (specs.map Prod.fst))]
  rw [hcols, if_neg hocc_ne, sbq_of_ident ht1 ht2]
  rfl

/-- Witness for C1 at `CREATE TABLE t (a INT, b INT, a INT)`. -/
theorem C1_wellformed_extraction_witness :
    ddl_to_schema (genStmt ("t".toList) (genBody
      [("a".toList, "INT".toList), ("b".toList, "INT".toList), ("a".toList, "INT".toList)])) =
      [("t".toList, firstOccurrences
        ([("a".toList, "INT".toList), ("b".toList, "INT".toList),
          ("a".toList, "INT".toList)].map Prod.fst))] :=
  C1_wellformed_extraction ("t".toList) _ (by decide) (by decide) (by decide) (by decide)

example : genStmt ("t".toList) (genBody
    [("a".toList, "INT".toList), ("b".toList, "INT".toList), ("a".toList, "INT".toList)]) =
    "CREATE TABLE t (a INT, b INT, a INT)".toList := by decide

example : firstOccurrences ([("a".toList, "INT".toList), ("b".toList, "INT".toList),
    ("a".toList, "INT".toList)].map Prod.fst) = ["a".toList, "b".toList] := by decide

theorem colSeg_no_paren {c ty : Str}
    (hc2 : ∀ a ∈ c, isIdentChar a = true) (hy2 : ∀ a ∈ ty, isIdentChar a = true) :
    ∀ a ∈ colSeg (c, ty), a ≠ '(' ∧ a ≠ ')' := by
  intro a ha
  rw [colSeg] at ha
  rcases List.mem_append.mp ha with h | h
  · obtain ⟨_, _, _, _, q5, q6, _⟩ := plain_spec (plain_of_ident (hc2 a h))
    exact ⟨q5, q6⟩
  · rcases List.mem_cons.mp h with h' | h'
    · subst h'; exact ⟨by decide, by decide⟩
    · obtain ⟨_, _, _, _, q5, q6, _⟩ := plain_spec (plain_of_ident (hy2 a h'))
      exact ⟨q5, q6⟩

theorem collect_single_colSeg {c ty : Str}
    (hc1 : c ≠ []) (hc2 : ∀ a ∈ c, isIdentChar a = true)
    (hy1 : ty ≠ []) (hy2 : ∀ a ∈ ty, isIdentChar a = true)
    (hk : isConstraintStart (colSeg (c, ty)) = false) :
    collectCols (split_top_level_commas (colSeg (c, ty))) = [c] := by
  have hs : split_top_level_commas (colSeg (c, ty)) = [colSeg (c, ty)] := by
    have hj : colSeg (c, ty) = joinComma [colSeg (c, ty)] := rfl
    conv_lhs => rw [hj]
    exact split_join _ (List.cons_ne_nil _ _) (by
      intro s hs
      rw [List.mem_singleton] at hs
      subst hs
      exact colSeg_facts hc1 hc2 hy1 hy2)
  rw [hs, collectCols]
  simp only [List.foldl_cons, List.foldl_nil]
  simp [parse_colSeg hc1 hc2 hy1 hy2 hk, hc1]

/--
C7: two generated `CREATE TABLE` statements for the same table name:
the second statement's column list is what the final mapping holds
(last-write-wins).
-/
theorem C7_duplicate_table_last_wins (t c1 ty1 c2 ty2 : Str)
    (ht1 : t ≠ []) (ht2 : ∀ a ∈ t, isIdentChar a = true)
    (hc11 : c1 ≠ []) (hc12 : ∀ a ∈ c1, isIdentChar a = true)
    (hy11 : ty1 ≠ []) (hy12 : ∀ a ∈ ty1, isIdentChar a = true)
    (hk1 : isConstraintStart (colSeg (c1, ty1)) = false)
    (hc21 : c2 ≠ []) (hc22 : ∀ a ∈ c2, isIdentChar a = true)
    (hy21 : ty2 ≠ []) (hy22 : ∀ a ∈ ty2, isIdentChar a = true)
    (hk2 : isConstraintStart (colSeg (c2, ty2)) = false) :
    ddl_to_schema (genStmt t (colSeg (c1, ty1)) ++ ' ' :: genStmt t (colSeg (c2, ty2))) =
      [(t, [c2])] := by
  have hblocks := blocks_two t (colSeg (c1, ty1)) t (colSeg (c2, ty2))
    ht1 ht2 (colSeg_no_paren hc12 hy12) ht1 ht2 (colSeg_no_paren hc22 hy22)
  rw [ddl_to_schema, hblocks]
  simp only [List.foldl_cons, List.foldl_nil]
  show (if collectCols (split_top_level_commas (colSeg (c2, ty2))) = [] then
      (if collectCols (split_top_level_commas (colSeg (c1, ty1))) = [] then []
       else dictSet [] (strip_brackets_and_quotes t)
         (collectCols (split_top_level_commas (colSeg (c1, ty1)))))
    else dictSet
      (if collectCols (split_top_level_commas (colSeg (c1, ty1))) = [] then []
       else dictSet [] (strip_brackets_and_quotes t)
         (collectCols (split_top_level_commas (colSeg (c1, ty1)))))
      (strip_brackets_and_quotes t)
      (collectCols (split_top_level_commas (colSeg (c2, ty2))))) = [(t, [c2])]
  rw [collect_single_colSeg hc11 hc12 hy11 hy12 hk1,
    collect_single_colSeg hc21 hc22 hy21 hy22 hk2,
    sbq_of_ident ht1 ht2]
  have e1 : dictSet [] t [c1] = [(t, [c1])] := rfl
  rw [if_neg (List.cons_ne_nil c2 []), if_neg (List.cons_ne_nil c1 []), e1]
  show dictSet [(t, [c1])] t [c2] = [(t, [c2])]
  rw [dictSet, if_pos rfl]

/-- Witness for C7 at two concrete statements for table `t`. -/
theorem C7_duplicate_table_last_wins_witness :
    ddl_to_schema (genStmt ("t".toList) (colSeg ("a".toList, "INT".toList)) ++
      ' ' :: genStmt ("t".toList) (colSeg ("b".toList, "INT".toList))) =
      [("t".toList, ["b".toList])] :=
  C7_duplicate_table_last_wins ("t".toList) ("a".toList) ("INT".toList)
    ("b".toList) ("INT".toList)
    (by decide) (by decide) (by decide) (by decide) (by decide) (by decide) (by decide)
    (by decide) (by decide) (by decide) (by decide) (by decide)

example : genStmt ("t".toList) (colSeg ("a".toList, "INT".toList)) ++
    ' ' :: genStmt ("t".toList) (colSeg ("b".toList, "INT".toList)) =
    "CREATE TABLE t (a INT) CREATE TABLE t (b INT)".toList := by decide

theorem ws_cases {a : Char} (h : isPyWs a = true) :
    a = ' ' ∨ a = '\t' ∨ a = '\n' ∨ a = '\r' ∨ a = '\x0b' ∨ a = '\x0c' := by
  rw [isPyWs] at h
  simp only [Bool.or_eq_true, decide_eq_true_eq] at h
  tauto

theorem ws_toLower_ne_c {a : Char} (h : isPyWs a = true) : Char.toLower a ≠ 'c' := by
  rcases ws_cases h with h' | h' | h' | h' | h' | h' <;> subst h' <;> decide

theorem ws_ne_open {a : Char} (h : isPyWs a = true) : a ≠ '(' := by
  rcases ws_cases h with h' | h' | h' | h' | h' | h' <;> subst h' <;> decide

theorem dropWhile_all {p : Char → Bool} {l : Str} (h : ∀ a ∈ l, p a = true) :
    l.dropWhile p = [] := by
  induction l with
  | nil => rfl
  | cons a l' ih =>
    rw [List.dropWhile_cons, h a (List.mem_cons_self a l')]
    exact ih (fun b hb => h b (List.mem_cons_of_mem a hb))

theorem dropWhile_all_append {p : Char → Bool} {w x : Str} (h : ∀ a ∈ w, p a = true) :
    (w ++ x).dropWhile p = x.dropWhile p := by
  induction w with
  | nil => simp
  | cons a w' ih =>
    rw [List.cons_append, List.dropWhile_cons, h a (List.mem_cons_self a w')]
    exact ih (fun b hb => h b (List.mem_cons_of_mem a hb))

theorem matchCreateAt_ws_fail {a : Char} {l : Str} (h : Char.toLower a ≠ 'c') :
    matchCreateAt (a :: l) = none := by
  rw [matchCreateAt]
  have : dropCI kwCreate (a :: l) = none := by
    rw [kwCreate]
    show dropCI ('c' :: "reate".toList) (a :: l) = none
    rw [dropCI]
    simp [h]
  rw [this]

theorem searchCreate_ws {l : Str} (h : ∀ a ∈ l, isPyWs a = true) :
    searchCreate l = none := by
  induction l with
  | nil => rfl
  | cons a l' ih =>
    rw [searchCreate,
      matchCreateAt_ws_fail (ws_toLower_ne_c (h a (List.mem_cons_self a l')))]
    exact ih (fun b hb => h b (List.mem_cons_of_mem a hb))

theorem searchCreate_cons_none {c : Char} {l : Str} (h : matchCreateAt (c :: l) = none) :
    searchCreate (c :: l) = searchCreate l := by
  rw [searchCreate, h]

theorem matchCreateAt_ct_ws {rest : Str} (hws : ∀ a ∈ rest, isPyWs a = true) :
    matchCreateAt ("create table".toList ++ rest) = none := by
  have estep : matchCreateAt ("create table".toList ++ rest) =
      (match ws1 rest with
       | none => none
       | some s4 =>
         if s4.takeWhile isTblNameChar = [] then none
         else if (s4.dropWhile isTblNameChar).all isPyWs then
           some (s4.takeWhile isTblNameChar)
         else none) := rfl
  rw [estep]
  cases rest with
  | nil => rfl
  | cons a rest' =>
    have ha : isPyWs a = true := hws a (List.mem_cons_self a rest')
    rw [ws1, if_pos ha]
    rw [dropWhile_all (fun b hb => hws b (List.mem_cons_of_mem a hb))]
    rfl

theorem searchCreate_ct_ws {rest : Str} (hws : ∀ a ∈ rest, isPyWs a = true) :
    searchCreate ("create table".toList ++ rest) = none := by
  show searchCreate ('c' :: ("reate table".toList ++ rest)) = none
  rw [searchCreate_cons_none (l := "reate table".toList ++ rest)
    (show matchCreateAt ('c' :: ("reate table".toList ++ rest)) = none from
      matchCreateAt_ct_ws hws)]
  show searchCreate ('r' :: ("eate table".toList ++ rest)) = none
  rw [searchCreate_cons_none (c := 'r') (l := "eate table".toList ++ rest) rfl]
  show searchCreate ('e' :: ("ate table".toList ++ rest)) = none
  rw [searchCreate_cons_none (c := 'e') (l := "ate table".toList ++ rest) rfl]
  show searchCreate ('a' :: ("te table".toList ++ rest)) = none
  rw [searchCreate_cons_none (c := 'a') (l := "te table".toList ++ rest) rfl]
  show searchCreate ('t' :: ("e table".toList ++ rest)) = none
  rw [searchCreate_cons_none (c := 't') (l := "e table".toList ++ rest) rfl]
  show searchCreate ('e' :: (" table".toList ++ rest)) = none
  rw [searchCreate_cons_none (c := 'e') (l := " table".toList ++ rest) rfl]
  show searchCreate (' ' :: ("table".toList ++ rest)) = none
  rw [searchCreate_cons_none (c := ' ') (l := "table".toList ++ rest) rfl]
  show searchCreate ('t' :: ("able".toList ++ rest)) = none
  rw [searchCreate_cons_none (c := 't') (l := "able".toList ++ rest) rfl]
  show searchCreate ('a' :: ("ble".toList ++ rest)) = none
  rw [searchCreate_cons_none (c := 'a') (l := "ble".toList ++ rest) rfl]
  show searchCreate ('b' :: ("le".toList ++ rest)) = none
  rw [searchCreate_cons_none (c := 'b') (l := "le".toList ++ rest) rfl]
  show searchCreate ('l' :: ("e".toList ++ rest)) = none
  rw [searchCreate_cons_none (c := 'l') (l := "e".toList ++ rest) rfl]
  show searchCreate ('e' :: rest) = none
  rw [searchCreate_cons_none (c := 'e') (l := rest) rfl]
  exact searchCreate_ws hws

theorem rawTableOf_ct_ws {rest : Str} (hws : ∀ a ∈ rest, isPyWs a = true) :
    rawTableOf ("create table".toList ++ rest) = "table".toList := by
  rw [rawTableOf, searchCreate_ct_ws hws]
  have hstrip : pyStrip ("create table".toList ++ rest) = "create table".toList := by
    have h1 : ("create table".toList ++ rest).dropWhile isPyWs =
        "create table".toList ++ rest :=
      dropWhile_eq_self_head (fun c hc => by
        have he : ("create table".toList ++ rest).head? = some 'c' := rfl
        rw [he] at hc
        have := Option.some.inj hc
        rw [← this]
        decide)
    have h2 : ("create table".toList).reverse.dropWhile isPyWs =
        ("create table".toList).reverse :=
      dropWhile_eq_self_head (fun c hc => by
        have he : ("create table".toList).reverse.head? = some 'e' := rfl
        rw [he] at hc
        have := Option.some.inj hc
        rw [← this]
        decide)
    show ((("create table".toList ++ rest).dropWhile isPyWs).reverse.dropWhile
      isPyWs).reverse = "create table".toList
    rw [h1, List.reverse_append]
    rw [dropWhile_all_append (fun a ha => hws a (List.mem_reverse.mp ha))]
    rw [h2, List.reverse_reverse]
  rw [hstrip]
  rfl

/--
C8 counterexample: with an empty span between the keyword and `(`, the
scanner does NOT use the sentinel placeholder: the raw identifier falls
back to the last token of the scanned span, which includes the keyword
itself, so the table is named `table`.
-/
theorem C8_sentinel_counterexample :
    find_create_table_blocks ("create table (a int)".toList) =
      [{ table_raw := "table".toList, cols_block := "a int".toList }] ∧
    "table".toList ≠ unknownTable ∧
    ddl_to_schema ("create table (a int)".toList) = [("table".toList, ["a".toList])] := by
  refine ⟨by decide, by decide, by decide⟩

/--
C8 (amended): the raw table identifier comes from the span starting AT
the keyword (not after it): the trailing regex token is preferred, else
the last whitespace token of that span; when the span between the
keyword and `(` is empty or whitespace-only, that fallback returns the
keyword's own last word `table`, and the sentinel `unknown_table` is
never used for such inputs.
-/
theorem C8_empty_span_keyword_fallback (rest : Str)
    (hws : ∀ a ∈ rest, isPyWs a = true) :
    find_create_table_blocks ("create table".toList ++ rest ++ "(a int)".toList) =
      [{ table_raw := "table".toList, cols_block := "a int".toList }] := by
  have hk : ("create table".toList).map Char.toLower = ctKw := rfl
  have hfind : strFind ((("create table".toList ++ rest) ++ "(a int)".toList).map
      Char.toLower) ctKw 0 = some 0 := by
    apply strFind_prefix ctKw_ne_nil
    rw [List.map_append, List.map_append, hk, List.append_assoc]
    exact isPrefixOf_self_append _ _
  have hopen : strFind (("create table".toList ++ rest) ++ "(a int)".toList) ['('] 0 =
      some ("create table".toList ++ rest).length := by
    show strFind (("create table".toList ++ rest) ++ '(' :: "a int)".toList) ['('] 0 =
      some ("create table".toList ++ rest).length
    apply strFind_open_paren
    intro a ha
    rcases List.mem_append.mp ha with h | h
    · exact (show ∀ x ∈ "create table".toList, x ≠ '(' by decide) a h
    · exact ws_ne_open (hws a h)
  have hpre : ((("create table".toList ++ rest) ++ "(a int)".toList).drop 0).take
      (("create table".toList ++ rest).length - 0) = "create table".toList ++ rest := by
    rw [List.drop_zero, Nat.sub_zero, List.take_left]
  have hscan : parenScanAux ((("create table".toList ++ rest) ++ "(a int)".toList).drop
      ("create table".toList ++ rest).length) (("create table".toList ++ rest).length) 0 =
      some (("create table".toList ++ rest).length + 1 + ("a int".toList).length) := by
    rw [List.drop_left]
    show parenScanAux ('(' :: "a int".toList ++ ')' :: [])
      (("create table".toList ++ rest).length) 0 =
      some (("create table".toList ++ rest).length + 1 + ("a int".toList).length)
    apply parenScanAux_balanced
    intro a ha
    exact (show ∀ x ∈ "a int".toList, x ≠ '(' ∧ x ≠ ')' by decide) a ha
  have hcols : ((("create table".toList ++ rest) ++ "(a int)".toList).drop
      (("create table".toList ++ rest).length + 1)).take
      (("create table".toList ++ rest).length + 1 + ("a int".toList).length -
        (("create table".toList ++ rest).length + 1)) = "a int".toList := by
    have hsplit : ("create table".toList ++ rest) ++ "(a int)".toList =
        (("create table".toList ++ rest) ++ ['(']) ++ ("a int".toList ++ [')']) := by
      simp
    have hlen : (("create table".toList ++ rest) ++ ['(']).length =
        ("create table".toList ++ rest).length + 1 := by simp
    rw [hsplit, ← hlen, List.drop_left, Nat.add_sub_cancel_left, List.take_left]
  have hL : (("create table".toList ++ rest) ++ "(a int)".toList).length =
      ("create table".toList ++ rest).length + 1 + ("a int".toList).length + 1 := by
    simp
  rw [find_create_table_blocks]
  conv_lhs => rw [fctbGo]
  simp only [hfind, hopen, hpre, rawTableOf_ct_ws hws, hscan, hcols]
  congr 1
  apply fctbGo_none
  apply strFind_none_end ctKw_ne_nil
  rw [List.length_map, hL]

/-- Witness for the amended C8 with a one-space span. -/
theorem C8_empty_span_keyword_fallback_witness :
    (∀ a ∈ [' '], isPyWs a = true) ∧
    find_create_table_blocks ("create table".toList ++ [' '] ++ "(a int)".toList) =
      [{ table_raw := "table".toList, cols_block := "a int".toList }] :=
  ⟨by decide, C8_empty_span_keyword_fallback [' '] (by decide)⟩

theorem strFindAux_map_none {J : Str} (hJc : strFind (J.map Char.toLower) ctKw 0 = none)
    (i : Nat) : strFindAux ctKw (J.map Char.toLower) i = none := by
  have h0 : strFindAux ctKw (J.map Char.toLower) 0 = none := by
    rw [strFind, List.drop_zero] at hJc
    exact hJc
  have := strFindAux_add ctKw (J.map Char.toLower) 0 i
  rw [h0] at this
  simpa using this

/-- The truncated trailing statement `create table z (` ++ J alone yields no block. -/
theorem fctb_badtail_bare (J : Str) (hJp : ∀ a ∈ J, a ≠ ')')
    (hJc : strFind (J.map Char.toLower) ctKw 0 = none) (f : Nat) :
    fctbGo ("create table z (".toList ++ J)
      (("create table z (".toList ++ J).map Char.toLower) (f + 1) 0 = [] := by
  have hlow : ("create table z (".toList ++ J).map Char.toLower =
      "create table z (".toList ++ J.map Char.toLower := by
    rw [List.map_append]
    rfl
  have hfind : strFind (("create table z (".toList ++ J).map Char.toLower) ctKw 0 =
      some 0 := by
    rw [hlow]
    apply strFind_prefix ctKw_ne_nil
    show ctKw.isPrefixOf (ctKw ++ (" z (".toList ++ J.map Char.toLower)) = true
    exact isPrefixOf_self_append _ _
  have hopen : strFind ("create table z (".toList ++ J) ['('] 0 = some 15 := by
    show strFind ("create table z ".toList ++ '(' :: J) ['('] 0 = some 15
    rw [strFind_open_paren (by
      intro a ha
      exact (show ∀ x ∈ "create table z ".toList, x ≠ '(' by decide) a ha)]
    rfl
  have hscan : parenScanAux (("create table z (".toList ++ J).drop 15) 15 0 = none := by
    have hd : ("create table z (".toList ++ J).drop 15 = '(' :: J := by
      show (("create table z ".toList ++ ['(']) ++ J).drop 15 = '(' :: J
      rw [List.append_assoc]
      rw [List.drop_left' (by rfl)]
      rfl
    rw [hd]
    apply parenScanAux_no_close
    intro c hc
    rcases List.mem_cons.mp hc with h | h
    · subst h; decide
    · exact hJp c h
  conv_lhs => rw [fctbGo]
  simp only [hfind, hopen, hscan]
  apply fctbGo_none
  rw [hlow]
  have hsplit : "create table z (".toList ++ J.map Char.toLower =
      "create table".toList ++ (" z (".toList ++ J.map Char.toLower) := rfl
  rw [hsplit, strFind]
  rw [List.drop_left' (by rfl)]
  rw [@strFindAux_skip ctKw 'c' rfl (" z (".toList) (J.map Char.toLower) 12
    (by decide)]
  have h16 : 12 + (" z (".toList).length = 16 := rfl
  rw [h16]
  exact strFindAux_map_none hJc 16

/-- The bad tail with one leading space yields no block either. -/
theorem fctb_badtail_sp (J : Str) (hJp : ∀ a ∈ J, a ≠ ')')
    (hJc : strFind (J.map Char.toLower) ctKw 0 = none) (f : Nat) :
    fctbGo (" create table z (".toList ++ J)
      ((" create table z (".toList ++ J).map Char.toLower) (f + 1) 0 = [] := by
  have hlow : (" create table z (".toList ++ J).map Char.toLower =
      " create table z (".toList ++ J.map Char.toLower := by
    rw [List.map_append]
    rfl
  have hfind : strFind ((" create table z (".toList ++ J).map Char.toLower) ctKw 0 =
      some 1 := by
    rw [hlow, strFind, List.drop_zero]
    show strFindAux ctKw ([' '] ++ ("create table z (".toList ++ J.map Char.toLower)) 0 =
      some 1
    rw [@strFindAux_skip ctKw 'c' rfl [' '] _ 0 (by decide)]
    rw [strFindAux_starts _ ctKw_ne_nil (by
      show ctKw.isPrefixOf (ctKw ++ (" z (".toList ++ J.map Char.toLower)) = true
      exact isPrefixOf_self_append _ _)]
    rfl
  have hopen : strFind (" create table z (".toList ++ J) ['('] 1 = some 16 := by
    rw [strFind]
    have hd : (" create table z (".toList ++ J).drop 1 = "create table z ".toList ++ '(' :: J := rfl
    rw [hd]
    rw [@strFindAux_skip ['('] '(' rfl ("create table z ".toList) ('(' :: J) 1
      (by decide)]
    rw [strFindAux_starts _ (by decide) (by simp [List.isPrefixOf])]
    rfl
  have hscan : parenScanAux ((" create table z (".toList ++ J).drop 16) 16 0 = none := by
    have hd : (" create table z (".toList ++ J).drop 16 = '(' :: J := by
      show ((" create table z ".toList ++ ['(']) ++ J).drop 16 = '(' :: J
      rw [List.append_assoc]
      rw [List.drop_left' (by rfl)]
      rfl
    rw [hd]
    apply parenScanAux_no_close
    intro c hc
    rcases List.mem_cons.mp hc with h | h
    · subst h; decide
    · exact hJp c h
  conv_lhs => rw [fctbGo]
  simp only [hfind, hopen, hscan]
  apply fctbGo_none
  rw [hlow]
  have hsplit : " create table z (".toList ++ J.map Char.toLower =
      " create table".toList ++ (" z (".toList ++ J.map Char.toLower) := rfl
  rw [hsplit, strFind]
  rw [List.drop_left' (by rfl)]
  rw [@strFindAux_skip ctKw 'c' rfl (" z (".toList) (J.map Char.toLower) 13
    (by decide)]
  have h17 : 13 + (" z (".toList).length = 17 := rfl
  rw [h17]
  exact strFindAux_map_none hJc 17

/--
C2: the extractor is total (it is a function defined on every input
string); an ill-formed occurrence — the keyword with no `(` afterwards,
or end of text before the parenthesis depth returns to zero — is skipped
with no block emitted, and a trailing truncated statement does not
affect the extraction of a well-formed `CREATE TABLE` statement earlier
in the same text.
-/
theorem C2_skip_and_independence (t b J : Str)
    (ht1 : t ≠ []) (ht2 : ∀ a ∈ t, isIdentChar a = true)
    (hb : ∀ a ∈ b, a ≠ '(' ∧ a ≠ ')')
    (hJp : ∀ a ∈ J, a ≠ ')')
    (hJc : strFind (J.map Char.toLower) ctKw 0 = none) :
    find_create_table_blocks (genStmt t b ++ (" create table z (".toList ++ J)) =
      find_create_table_blocks (genStmt t b) ∧
    ddl_to_schema (genStmt t b ++ (" create table z (".toList ++ J)) =
      ddl_to_schema (genStmt t b) ∧
    ddl_to_schema ("create table z (".toList ++ J) = [] ∧
    ddl_to_schema ("create table a (x int) create table b".toList) =
      [("a".toList, ["x".toList])] := by
  have hbad : find_create_table_blocks (genStmt t b ++ (" create table z (".toList ++ J)) =
      find_create_table_blocks (genStmt t b) := by
    have hG : ([] : Str) ++ genStmt t b ++ (" create table z (".toList ++ J) =
        genStmt t b ++ (" create table z (".toList ++ J) := by simp
    rw [find_create_table_blocks, ← hG]
    rw [fctb_block [] t b (" create table z (".toList ++ J) _ (by simp) ht1 ht2 hb]
    rw [blocks_single t b ht1 ht2 hb]
    congr 1
    have hlenR : (" create table z (".toList ++ J).length = 17 + J.length := by
      simp
      omega
    have hlenT : (([] : Str) ++ genStmt t b ++ (" create table z (".toList ++ J)).length =
        (genStmt t b).length + (17 + J.length) := by
      simp
      omega
    rw [fctbGo_fuel (" create table z (".toList ++ J)
        ((" create table z (".toList ++ J).map Char.toLower) (List.length_map _ _)
        _ ((" create table z (".toList ++ J).length + 1) 0
        (by
          rw [hlenT, hlenR]
          have := genStmt_length t b
          omega)
        (by omega)]
    rw [hlenR]
    exact fctb_badtail_sp J hJp hJc (17 + J.length)
  refine ⟨hbad, ?_, ?_, by decide⟩
  · rw [ddl_to_schema, ddl_to_schema, hbad]
  · rw [ddl_to_schema]
    have hlen : ("create table z (".toList ++ J).length = 16 + J.length := by
      simp
      omega
    rw [find_create_table_blocks, hlen]
    rw [fctb_badtail_bare J hJp hJc (16 + J.length)]
    rfl

/-- Witness for C2 at a concrete good statement and truncated tail. -/
theorem C2_skip_and_independence_witness :
    find_create_table_blocks (genStmt ("a".toList) (colSeg ("x".toList, "int".toList)) ++
      (" create table z (".toList ++ " ".toList)) =
      find_create_table_blocks (genStmt ("a".toList) (colSeg ("x".toList, "int".toList))) ∧
    ddl_to_schema ("create table z (".toList ++ " ".toList) = [] := by
  have h := C2_skip_and_independence ("a".toList) (colSeg ("x".toList, "int".toList))
    (" ".toList) (by decide) (by decide) (by decide) (by decide) (by decide)
  exact ⟨h.1, h.2.2.1⟩

/-- CPython check: stable descending selection with ties
(`pick_top_columns(["alpha","beta_id","cdate","status_x","name1","zid","w"])
== ['beta_id', 'zid', 'cdate', 'name1']`). -/
example :
    pick_top_columns
      (["alpha", "beta_id", "cdate", "status_x", "name1", "zid", "w"].map String.toList) 4 =
      ["beta_id", "zid", "cdate", "name1"].map String.toList := by decide

/-- CPython check: all-equal keys keep input order
(`pick_top_columns(["a","b","c","d","e"]) == ['a','b','c','d']`). -/
example :
    pick_top_columns (["a", "b", "c", "d", "e"].map String.toList) 4 =
      ["a", "b", "c", "d"].map String.toList := by decide

/-- CPython check: `pick_top_columns(["xname","ydate","zid","id","udate_id"])
== ['udate_id', 'zid', 'id', 'ydate']` (bare `id` ends with `id`; `zid`
stays before `id` by stability). -/
example :
    pick_top_columns (["xname", "ydate", "zid", "id", "udate_id"].map String.toList) 4 =
      ["udate_id", "zid", "id", "ydate"].map String.toList := by decide

/-- CPython check: `normalize("_My Tab_x_") == '_my_tab_x_'` and the alias
set `{normalize(t)} | {normalize(p) for p in t.split('_')}` is
`{'', '_my_tab_x_', 'my_tab', 'x'}` (split keeps empty parts). -/
example :
    normalize ("_My Tab_x_".toList) = "_my_tab_x_".toList ∧
    aliasesOf ("_My Tab_x_".toList) =
      ["_my_tab_x_", "", "my_tab", "x"].map String.toList := by decide

/-- CPython check: `json.dumps('a"b\\c\nd\te\x01f', ensure_ascii=False)`
is `"a\"b\\\\c\\nd\\te\\u0001f"` (escaping layer). -/
example :
    escString ("a\"b\\c\nd\te\x01f".toList) = "a\\\"b\\\\c\\nd\\te\\u0001f".toList := by decide

/-- CPython check: `json.dumps('\x1f\x0b\r\x08\x0c')` is
`"\\u001f\\u000b\\r\\b\\f"`. -/
example :
    escString ("\x1f\x0b\r\x08\x0c".toList) = "\\u001f\\u000b\\r\\b\\f".toList := by decide

set_option maxRecDepth 8192 in
/-- CPython check: the exact NDJSON line `build_registry` writes for
`{"policies": ["pol_id", "pol_date", "note"]}` (SHA-1 prefix of
`policies|pol_id,pol_date,note` is `9e9f1fe4`). -/
example :
    build_registry shaW schemaW =
      [("\x7b\"table\": \"policies\", \"sig\": \"tbl:policies|h:9e9f1fe4\", \"top_columns\": [\"pol_id\", \"pol_date\", \"note\"], \"aliases\": [\"policies\"], \"sample_queries\": [], \"neighbors\": [], \"sensitivity\": \"low\"\x7d".toList ++ ['\n'])] := by decide

set_option maxRecDepth 8192 in
/-- CPython check: `json.loads` of that line recovers the document, and
the loader maps `policies` to it. -/
example :
    loadRegistry (build_registry shaW schemaW) =
      some [("policies".toList, docOf shaW ("policies".toList)
        (["pol_id", "pol_date", "note"].map String.toList))] := by decide

/-- Membership in the first-occurrence de-duplication. -/
theorem mem_firstOcc {a : Str} : ∀ {l : List Str}, a ∈ firstOccurrences l ↔ a ∈ l := by
  intro l
  induction l with
  | nil => rfl
  | cons x xs ih =>
    rw [firstOcc_cons]
    simp only [List.mem_cons, List.mem_filter, ih, ne_eq, decide_eq_true_eq]
    constructor
    · rintro (h | ⟨h, _⟩)
      · exact Or.inl h
      · exact Or.inr h
    · rintro (h | h)
      · exact Or.inl h
      · by_cases hax : a = x
        · exact Or.inl hax
        · exact Or.inr ⟨h, hax⟩

/-- First-occurrence de-duplication has no duplicates. -/
theorem firstOcc_nodup : ∀ (l : List Str), (firstOccurrences l).Nodup := by
  intro l
  induction l with
  | nil => exact List.nodup_nil
  | cons x xs ih =>
    rw [firstOcc_cons]
    refine List.Nodup.cons ?_ (List.Nodup.filter _ ih)
    intro hx
    rcases List.mem_filter.mp hx with ⟨_, hne⟩
    simp at hne

/-- Setting an absent key appends the pair. -/
theorem dictSetG_absent {α : Type} (d : List (Str × α)) (k : Str) (v : α)
    (h : k ∉ d.map Prod.fst) : dictSetG d k v = d ++ [(k, v)] := by
  induction d with
  | nil => rfl
  | cons p rest ih =>
    simp only [List.map_cons, List.mem_cons, not_or] at h
    rw [show dictSetG (p :: rest) k v =
      if p.1 = k then (k, v) :: rest else p :: dictSetG rest k v from rfl]
    rw [if_neg (fun he => h.1 he.symm), ih h.2, List.cons_append]

/-- Folding `dictSetG` over pairs with fresh, pairwise-distinct keys
appends them in order. -/
theorem foldl_dictSetG_nodup {α : Type} :
    ∀ (ps acc : List (Str × α)), (ps.map Prod.fst).Nodup →
      (∀ k ∈ ps.map Prod.fst, k ∉ acc.map Prod.fst) →
      ps.foldl (fun d p => dictSetG d p.1 p.2) acc = acc ++ ps := by
  intro ps
  induction ps with
  | nil => intro acc _ _; simp
  | cons p rest ih =>
    intro acc hnd hfresh
    simp only [List.map_cons, List.nodup_cons] at hnd
    have hstep : dictSetG acc p.1 p.2 = acc ++ [(p.1, p.2)] :=
      dictSetG_absent acc p.1 p.2
        (hfresh p.1 (by rw [List.map_cons]; exact List.mem_cons_self _ _))
    have hside : ∀ k ∈ rest.map Prod.fst, k ∉ (acc ++ [(p.1, p.2)]).map Prod.fst := by
      intro k hk
      simp only [List.map_append, List.mem_append, not_or]
      refine ⟨hfresh k (by rw [List.map_cons]; exact List.mem_cons_of_mem _ hk), ?_⟩
      intro hmem
      simp only [List.map_cons, List.map_nil, List.mem_singleton] at hmem
      exact hnd.1 (hmem ▸ hk)
    rw [List.foldl_cons, hstep, ih (acc ++ [(p.1, p.2)]) hnd.2 hside]
    simp

/-- The `\u00xx` escape scans back to the escaped character. -/
theorem pjs_u (t : Nat) (ht : t < 32) (tail : Str) :
    pjsGo JSMode.esc ('u' :: '0' :: '0' :: hexDigit (t / 16) :: hexDigit (t % 16) :: tail) =
      (pjsGo JSMode.norm tail).map (fun p => (Char.ofNat t :: p.1, p.2)) := by
  interval_cases t <;> rfl

/-- Unescaping inverts `json.dumps` string escaping. -/
theorem pjs_esc (s rest : Str) :
    pjsGo JSMode.norm (escString s ++ '"' :: rest) = some (s, rest) := by
  induction s with
  | nil =>
    rw [escString, List.nil_append]
    rfl
  | cons c cs ih =>
    rw [escString, List.append_assoc, escChar]
    by_cases h1 : c = '"'
    · subst h1
      rw [if_pos rfl]
      show (pjsGo JSMode.norm (escString cs ++ '"' :: rest)).map
        (fun p => ('"' :: p.1, p.2)) = _
      rw [ih]
      rfl
    rw [if_neg h1]
    by_cases h2 : c = '\\'
    · subst h2
      rw [if_pos rfl]
      show (pjsGo JSMode.norm (escString cs ++ '"' :: rest)).map
        (fun p => ('\\' :: p.1, p.2)) = _
      rw [ih]
      rfl
    rw [if_neg h2]
    by_cases h3 : c = '\n'
    · subst h3
      rw [if_pos rfl]
      show (pjsGo JSMode.norm (escString cs ++ '"' :: rest)).map
        (fun p => ('\n' :: p.1, p.2)) = _
      rw [ih]
      rfl
    rw [if_neg h3]
    by_cases h4 : c = '\t'
    · subst h4
      rw [if_pos rfl]
      show (pjsGo JSMode.norm (escString cs ++ '"' :: rest)).map
        (fun p => ('\t' :: p.1, p.2)) = _
      rw [ih]
      rfl
    rw [if_neg h4]
    by_cases h5 : c = '\r'
    · subst h5
      rw [if_pos rfl]
      show (pjsGo JSMode.norm (escString cs ++ '"' :: rest)).map
        (fun p => ('\r' :: p.1, p.2)) = _
      rw [ih]
      rfl
    rw [if_neg h5]
    by_cases h6 : c = '\x08'
    · subst h6
      rw [if_pos rfl]
      show (pjsGo JSMode.norm (escString cs ++ '"' :: rest)).map
        (fun p => ('\x08' :: p.1, p.2)) = _
      rw [ih]
      rfl
    rw [if_neg h6]
    by_cases h7 : c = '\x0c'
    · subst h7
      rw [if_pos rfl]
      show (pjsGo JSMode.norm (escString cs ++ '"' :: rest)).map
        (fun p => ('\x0c' :: p.1, p.2)) = _
      rw [ih]
      rfl
    rw [if_neg h7]
    by_cases h8 : c.toNat < 32
    · rw [if_pos h8]
      show pjsGo JSMode.esc ('u' :: '0' :: '0' :: hexDigit (c.toNat / 16) ::
        hexDigit (c.toNat % 16) :: (escString cs ++ '"' :: rest)) = _
      rw [pjs_u c.toNat h8, ih, Option.map_some', Char.ofNat_toNat]
    · rw [if_neg h8]
      rw [show [c] ++ (escString cs ++ '"' :: rest) = c :: (escString cs ++ '"' :: rest)
        from rfl]
      rw [show pjsGo JSMode.norm (c :: (escString cs ++ '"' :: rest)) =
        if c = '"' then some ([], escString cs ++ '"' :: rest)
        else if c = '\\' then pjsGo JSMode.esc (escString cs ++ '"' :: rest)
        else (pjsGo JSMode.norm (escString cs ++ '"' :: rest)).map
          (fun p => (c :: p.1, p.2)) from rfl]
      rw [if_neg h1, if_neg h2, ih]
      rfl

/-- Unescaping inverts `json.dumps` string escaping (wrapper form). -/
theorem parseJStr_esc (s rest : Str) :
    parseJStrAux (escString s ++ '"' :: rest) = some (s, rest) := pjs_esc s rest

/-- Whitespace skipping stops at a closing bracket. -/
theorem skipJWs_rb (t : Str) : skipJWs (']' :: t) = ']' :: t := rfl

/-- Whitespace skipping stops at a comma. -/
theorem skipJWs_comma (t : Str) : skipJWs (',' :: t) = ',' :: t := rfl

/-- Whitespace skipping stops at a colon. -/
theorem skipJWs_colon (t : Str) : skipJWs (':' :: t) = ':' :: t := rfl

/-- Whitespace skipping stops at a quote. -/
theorem skipJWs_quote (t : Str) : skipJWs ('"' :: t) = '"' :: t := rfl

/-- Whitespace skipping stops at a closing brace. -/
theorem skipJWs_rcb (t : Str) : skipJWs (cbrc :: t) = cbrc :: t := rfl

/-- Whitespace skipping stops at an opening brace. -/
theorem skipJWs_obr (t : Str) : skipJWs (obrc :: t) = obrc :: t := rfl

/-- Whitespace skipping stops at an opening bracket. -/
theorem skipJWs_ob (t : Str) : skipJWs ('[' :: t) = '[' :: t := rfl

/-- Whitespace skipping consumes a space. -/
theorem skipJWs_sp (t : Str) : skipJWs (' ' :: t) = skipJWs t := rfl

/-- Whitespace skipping consumes a newline. -/
theorem skipJWs_nl (t : Str) : skipJWs ('\n' :: t) = skipJWs t := rfl

/-- A `", "`-join of encoded strings starts with a quote. -/
theorem joinStr_head (y : Str) (ys : List Str) :
    ∃ T, joinComma ((y :: ys).map encodeJStr) = '"' :: T := by
  cases ys with
  | nil => exact ⟨escString y ++ ['"'], by simp [joinComma, encodeJStr]⟩
  | cons z zs =>
    exact ⟨(escString y ++ ['"']) ++ ',' :: ' ' :: joinComma ((z :: zs).map encodeJStr),
      by simp [joinComma, encodeJStr]⟩

/-- The array-element loop recovers an encoded string list. -/
theorem parseArr_enc : ∀ (xs : List Str), xs ≠ [] → ∀ (rest : Str) (f : Nat),
    xs.length ≤ f →
    parseArrAux f (joinComma (xs.map encodeJStr) ++ ']' :: rest) = some (xs, rest) := by
  intro xs
  induction xs with
  | nil => intro h; exact absurd rfl h
  | cons x tail ih =>
    intro _ rest f hf
    obtain ⟨f', rfl⟩ : ∃ f', f = f' + 1 :=
      ⟨f - 1, by simp only [List.length_cons] at hf; omega⟩
    cases tail with
    | nil =>
      have hshape : joinComma (([x] : List Str).map encodeJStr) ++ ']' :: rest =
          '"' :: (escString x ++ '"' :: ']' :: rest) := by
        simp [joinComma, encodeJStr]
      rw [hshape]
      simp only [parseArrAux, parseJStr_esc, skipJWs_rb]
      rfl
    | cons y ys =>
      have hshape : joinComma ((x :: y :: ys).map encodeJStr) ++ ']' :: rest =
          '"' :: (escString x ++ '"' :: ',' :: ' ' ::
            (joinComma ((y :: ys).map encodeJStr) ++ ']' :: rest)) := by
        simp [joinComma, encodeJStr]
      rw [hshape]
      obtain ⟨T, hT⟩ := joinStr_head y ys
      have hskip : skipJWs (joinComma ((y :: ys).map encodeJStr) ++ ']' :: rest) =
          joinComma ((y :: ys).map encodeJStr) ++ ']' :: rest := by
        rw [hT, List.cons_append, skipJWs_quote]
      simp only [parseArrAux, parseJStr_esc, skipJWs_comma, skipJWs_sp]
      rw [hskip, ih (by simp) rest f'
        (by simp only [List.length_cons] at hf ⊢; omega)]
      rfl

/-- The value parser recovers an encoded value. -/
theorem parseJVal_enc (v : JVal) (rest : Str) (f : Nat) (hf : vsize v ≤ f) :
    parseJVal f (encodeJVal v ++ rest) = some (v, rest) := by
  cases v with
  | jstr s =>
    have hshape : encodeJVal (JVal.jstr s) ++ rest = '"' :: (escString s ++ '"' :: rest) := by
      simp [encodeJVal, encodeJStr]
    rw [hshape]
    simp only [parseJVal, parseJStr_esc]
    rfl
  | jarr xs =>
    cases xs with
    | nil =>
      have hshape : encodeJVal (JVal.jarr []) ++ rest = '[' :: ']' :: rest := by
        simp [encodeJVal, joinComma]
      rw [hshape]
      rfl
    | cons y ys =>
      obtain ⟨T, hT⟩ := joinStr_head y ys
      have hshape : encodeJVal (JVal.jarr (y :: ys)) ++ rest =
          '[' :: '"' :: (T ++ ']' :: rest) := by
        rw [encodeJVal, hT]
        simp
      rw [hshape]
      have harr : parseArrAux f ('"' :: (T ++ ']' :: rest)) = some (y :: ys, rest) := by
        rw [show ('"' :: (T ++ ']' :: rest) : Str) = ('"' :: T) ++ ']' :: rest by simp,
          ← hT]
        exact parseArr_enc (y :: ys) (by simp) rest f (by simpa [vsize] using hf)
      simp only [parseJVal, skipJWs_quote]
      rw [harr]
      rfl

/-- A `", "`-join of encoded members starts with a quote. -/
theorem joinPair_head (p : Str × JVal) (ps : List (Str × JVal)) :
    ∃ T, joinComma ((p :: ps).map encodePair) = '"' :: T := by
  cases ps with
  | nil =>
    exact ⟨(escString p.1 ++ ['"']) ++ ':' :: ' ' :: encodeJVal p.2,
      by simp [joinComma, encodePair, encodeJStr]⟩
  | cons q qs =>
    exact ⟨((escString p.1 ++ ['"']) ++ ':' :: ' ' :: encodeJVal p.2) ++
        ',' :: ' ' :: joinComma ((q :: qs).map encodePair),
      by simp [joinComma, encodePair, encodeJStr]⟩

/-- The member loop recovers an encoded member list. -/
theorem parseObj_enc : ∀ (ps : List (Str × JVal)), ps ≠ [] → ∀ (rest : Str) (f : Nat),
    jweight ps ≤ f →
    parseObjAux f (joinComma (ps.map encodePair) ++ cbrc :: rest) = some (ps, rest) := by
  intro ps
  induction ps with
  | nil => intro h; exact absurd rfl h
  | cons p tail ih =>
    intro _ rest f hf
    have hw : jweight (p :: tail) = 1 + vsize p.2 + jweight tail := by
      simp [jweight]
    obtain ⟨f', rfl⟩ : ∃ f', f = f' + 1 := ⟨f - 1, by omega⟩
    have hf1 : vsize p.2 ≤ f' := by omega
    have hf2 : jweight tail ≤ f' := by omega
    cases tail with
    | nil =>
      have hshape : joinComma (([p] : List (Str × JVal)).map encodePair) ++ cbrc :: rest =
          '"' :: (escString p.1 ++ '"' :: ':' :: ' ' ::
            (encodeJVal p.2 ++ cbrc :: rest)) := by
        simp [joinComma, encodePair, encodeJStr]
      rw [hshape]
      have hv : parseJVal f' (skipJWs (encodeJVal p.2 ++ cbrc :: rest)) =
          some (p.2, cbrc :: rest) := by
        have hskip : skipJWs (encodeJVal p.2 ++ cbrc :: rest) =
            encodeJVal p.2 ++ cbrc :: rest := by
          cases p.2 with
          | jstr s => rw [encodeJVal, encodeJStr, List.cons_append, skipJWs_quote]
          | jarr xs => rw [encodeJVal, List.cons_append, skipJWs_ob]
        rw [hskip]
        exact parseJVal_enc p.2 (cbrc :: rest) f' hf1
      simp only [parseObjAux, parseJStr_esc, skipJWs_colon, skipJWs_sp, hv]
      rfl
    | cons q qs =>
      have hshape : joinComma ((p :: q :: qs).map encodePair) ++ cbrc :: rest =
          '"' :: (escString p.1 ++ '"' :: ':' :: ' ' ::
            (encodeJVal p.2 ++ ',' :: ' ' ::
              (joinComma ((q :: qs).map encodePair) ++ cbrc :: rest))) := by
        simp [joinComma, encodePair, encodeJStr]
      rw [hshape]
      have hv : parseJVal f' (skipJWs (encodeJVal p.2 ++ ',' :: ' ' ::
          (joinComma ((q :: qs).map encodePair) ++ cbrc :: rest))) =
          some (p.2, ',' :: ' ' ::
            (joinComma ((q :: qs).map encodePair) ++ cbrc :: rest)) := by
        have hskip : skipJWs (encodeJVal p.2 ++ ',' :: ' ' ::
            (joinComma ((q :: qs).map encodePair) ++ cbrc :: rest)) =
            encodeJVal p.2 ++ ',' :: ' ' ::
            (joinComma ((q :: qs).map encodePair) ++ cbrc :: rest) := by
          cases p.2 with
          | jstr s => rw [encodeJVal, encodeJStr, List.cons_append, skipJWs_quote]
          | jarr xs => rw [encodeJVal, List.cons_append, skipJWs_ob]
        rw [hskip]
        exact parseJVal_enc p.2 _ f' hf1
      obtain ⟨T, hT⟩ := joinPair_head q qs
      have hskip2 : skipJWs (joinComma ((q :: qs).map encodePair) ++ cbrc :: rest) =
          joinComma ((q :: qs).map encodePair) ++ cbrc :: rest := by
        rw [hT, List.cons_append, skipJWs_quote]
      simp only [parseObjAux, parseJStr_esc, skipJWs_colon, skipJWs_sp, hv,
        skipJWs_comma, hskip2]
      rw [ih (by simp) rest f' hf2]
      rfl

/-- An encoded string is at least the two quotes long. -/
theorem encodeJStr_len (s : Str) : 2 ≤ (encodeJStr s).length := by
  simp [encodeJStr]

/-- An encoded value is longer than its element count. -/
theorem encodeJVal_len (v : JVal) : vsize v + 1 ≤ (encodeJVal v).length := by
  cases v with
  | jstr s => simp [encodeJVal, encodeJStr, vsize]
  | jarr xs =>
    have hj : ∀ (l : List Str), l.length ≤ (joinComma (l.map encodeJStr)).length := by
      intro l
      induction l with
      | nil => simp [joinComma]
      | cons y ys ih =>
        cases ys with
        | nil =>
          have := encodeJStr_len y
          simp only [List.map_cons, List.map_nil, joinComma, List.length_cons,
            List.length_nil]
          omega
        | cons z zs =>
          have h1 := encodeJStr_len y
          have h2 : joinComma ((y :: z :: zs).map encodeJStr) =
              encodeJStr y ++ ',' :: ' ' :: joinComma ((z :: zs).map encodeJStr) := rfl
          rw [h2]
          simp only [List.length_cons, List.length_append] at ih ⊢
          omega
    have := hj xs
    simp only [encodeJVal, vsize, List.length_cons, List.length_append]
    omega

/-- An encoded member is longer than one plus its value element count. -/
theorem encodePair_len (p : Str × JVal) : 1 + vsize p.2 ≤ (encodePair p).length := by
  have h1 := encodeJVal_len p.2
  have h2 := encodeJStr_len p.1
  simp only [encodePair, List.length_append, List.length_cons]
  omega

/-- The fuel measure of an object is bounded by its encoding length. -/
theorem jweight_le_join : ∀ (ps : List (Str × JVal)),
    jweight ps ≤ (joinComma (ps.map encodePair)).length := by
  intro ps
  induction ps with
  | nil => simp [jweight, joinComma]
  | cons p tail ih =>
    cases tail with
    | nil =>
      have := encodePair_len p
      simp only [List.map_cons, List.map_nil, joinComma, jweight, List.foldr_cons,
        List.foldr_nil]
      omega
    | cons q qs =>
      have h1 := encodePair_len p
      have h2 : joinComma ((p :: q :: qs).map encodePair) =
          encodePair p ++ ',' :: ' ' :: joinComma ((q :: qs).map encodePair) := rfl
      rw [h2]
      simp only [jweight, List.foldr_cons, List.length_append, List.length_cons] at ih ⊢
      omega

/-- `json.loads` recovers the document from its `json.dumps` NDJSON line. -/
theorem parseLine_enc (doc : JDoc) (hne : doc ≠ []) :
    parseLine (encodeObj doc ++ ['\n']) = some (objToDict doc) := by
  obtain ⟨p, tail, rfl⟩ : ∃ p tail, doc = p :: tail := by
    cases doc with
    | nil => exact absurd rfl hne
    | cons p t => exact ⟨p, t, rfl⟩
  obtain ⟨T, hT⟩ := joinPair_head p tail
  have hshape : encodeObj (p :: tail) ++ ['\n'] =
      obrc :: '"' :: (T ++ cbrc :: '\n' :: []) := by
    rw [encodeObj, hT]
    simp
  rw [hshape]
  have hback : ('"' :: (T ++ cbrc :: '\n' :: []) : Str) =
      joinComma ((p :: tail).map encodePair) ++ cbrc :: ['\n'] := by
    rw [hT]
    simp
  simp only [parseLine, skipJWs_obr, skipJWs_quote]
  rw [hback]
  rw [parseObj_enc (p :: tail) (by simp) ['\n']]
  · rfl
  · have h1 := jweight_le_join (p :: tail)
    simp only [List.length_cons, List.length_append]
    omega

/-- The seven keys of a registry document are distinct, so rebuilding the
dict from its parsed members is the identity. -/
theorem objToDict_docOf (sha : Str → Str) (t : Str) (cols : List Str) :
    objToDict (docOf sha t cols) = docOf sha t cols := by
  have hnd : ((docOf sha t cols).map Prod.fst).Nodup := by
    show (["table".toList, "sig".toList, "top_columns".toList, "aliases".toList,
      "sample_queries".toList, "neighbors".toList, "sensitivity".toList] : List Str).Nodup
    decide
  have h := foldl_dictSetG_nodup (docOf sha t cols) [] hnd
    (by intro k _ hk; simp at hk)
  simpa [objToDict] using h

/-- The loaded document is keyed by its `table` field. -/
theorem lookup_table_docOf (sha : Str → Str) (t : Str) (cols : List Str) :
    lookupStr ("table".toList) (docOf sha t cols) = some (JVal.jstr t) := rfl

/-- One loader step on one built line stores the document under the
table name. -/
theorem loadStep_doc (sha : Str → Str) (tbls : List (Str × JDoc)) (t : Str)
    (cols : List Str) :
    loadStep (some tbls) (encodeObj (docOf sha t cols) ++ ['\n']) =
      some (dictSetG tbls t (docOf sha t cols)) := by
  have hne : docOf sha t cols ≠ [] := by simp [docOf]
  simp only [loadStep, parseLine_enc (docOf sha t cols) hne, objToDict_docOf,
    lookup_table_docOf]

/-- The loader fold over all built lines accumulates every document. -/
theorem loadRegistry_build (sha : Str → Str) :
    ∀ (schema : List (Str × List Str)) (tbls : List (Str × JDoc)),
      (build_registry sha schema).foldl loadStep (some tbls) =
        some (schema.foldl (fun d p => dictSetG d p.1 (docOf sha p.1 p.2)) tbls) := by
  intro schema
  induction schema with
  | nil => intro tbls; rfl
  | cons p rest ih =>
    intro tbls
    rw [show build_registry sha (p :: rest) =
      (encodeObj (docOf sha p.1 p.2) ++ ['\n']) :: build_registry sha rest from rfl]
    rw [List.foldl_cons, loadStep_doc sha tbls p.1 p.2, ih]
    rfl

/-- The alias list holds exactly the normalized table name and the
normalized underscore-separated parts. -/
theorem mem_aliasesOf (t a : Str) :
    a ∈ aliasesOf t ↔ a = normalize t ∨ ∃ x ∈ pySplitSep '_' t, a = normalize x := by
  rw [aliasesOf, mem_firstOcc]
  simp only [List.mem_cons, List.mem_map]
  constructor
  · rintro (h | ⟨x, hx, he⟩)
    · exact Or.inl h
    · exact Or.inr ⟨x, hx, he.symm⟩
  · rintro (h | ⟨x, hx, he⟩)
    · exact Or.inl h
    · exact Or.inr ⟨x, hx, he.symm⟩

/--
C9: for a fixed schema mapping (with its table names distinct, as dict
keys are), writing the registry via `build_registry` and reading it back
via `TableRegistry._load_registry` reproduces exactly one document per
table, keyed by the table name in mapping order — in particular the same
set of tables — and the derived `top_columns` and alias set stored in
each document are the deterministic functions `pick_top_columns` and
`aliasesOf` of the input mapping alone.
-/
theorem C9_registry_roundtrip (sha : Str → Str) (schema : List (Str × List Str))
    (hnd : (schema.map Prod.fst).Nodup) :
    loadRegistry (build_registry sha schema) =
      some (schema.map (fun p => (p.1, docOf sha p.1 p.2))) ∧
    (loadRegistry (build_registry sha schema)).map (fun tbls => tbls.map Prod.fst) =
      some (schema.map Prod.fst) ∧
    (∀ t, (aliasesOf t).Nodup ∧
      ∀ a, a ∈ aliasesOf t ↔ a = normalize t ∨ ∃ x ∈ pySplitSep '_' t, a = normalize x) ∧
    (∀ p ∈ schema,
      lookupStr ("table".toList) (docOf sha p.1 p.2) = some (JVal.jstr p.1) ∧
      lookupStr ("top_columns".toList) (docOf sha p.1 p.2) =
        some (JVal.jarr (pick_top_columns p.2 4)) ∧
      lookupStr ("aliases".toList) (docOf sha p.1 p.2) =
        some (JVal.jarr (aliasesOf p.1))) := by
  have hmain : loadRegistry (build_registry sha schema) =
      some (schema.map (fun p => (p.1, docOf sha p.1 p.2))) := by
    rw [loadRegistry, loadRegistry_build sha schema []]
    have hfm : schema.foldl (fun d p => dictSetG d p.1 (docOf sha p.1 p.2)) [] =
        (schema.map (fun p => (p.1, docOf sha p.1 p.2))).foldl
          (fun d q => dictSetG d q.1 q.2) [] := by
      rw [List.foldl_map]
    have hkeys : (schema.map (fun p => (p.1, docOf sha p.1 p.2))).map Prod.fst =
        schema.map Prod.fst := by
      rw [List.map_map]
      rfl
    have h1 : ((schema.map (fun p => (p.1, docOf sha p.1 p.2))).map Prod.fst).Nodup := by
      rw [hkeys]
      exact hnd
    have h2 : ∀ k ∈ (schema.map (fun p => (p.1, docOf sha p.1 p.2))).map Prod.fst,
        k ∉ ([] : List (Str × JDoc)).map Prod.fst := by
      intro k _ hk
      simp at hk
    rw [hfm, foldl_dictSetG_nodup _ [] h1 h2]
    rfl
  refine ⟨hmain, ?_, ?_, ?_⟩
  · rw [hmain, Option.map_some']
    congr 1
    rw [List.map_map]
    rfl
  · intro t
    refine ⟨?_, fun a => mem_aliasesOf t a⟩
    rw [aliasesOf]
    exact firstOcc_nodup _
  · intro p _
    exact ⟨rfl, rfl, rfl⟩

/-- Witness for C9 at the one-table schema `{policies: [pol_id, pol_date,
note]}` with the concrete SHA-1 stand-in. -/
theorem C9_registry_roundtrip_witness :
    loadRegistry (build_registry shaW schemaW) =
      some (schemaW.map (fun p => (p.1, docOf shaW p.1 p.2))) ∧
    (aliasesOf ("my_tab".toList)).Nodup := by
  refine ⟨(C9_registry_roundtrip shaW schemaW (by decide)).1, ?_⟩
  exact (((C9_registry_roundtrip shaW schemaW (by decide)).2.2.1) ("my_tab".toList)).1

end SqlToGraph
